import Mathlib

/-!
# MIT Admissions blog scraper: a verification development

A shallow embedding of `mit_blogs_scraper.js` and theorems about it.

Conventions of the embedding.
* JavaScript strings are `String` / `List Char`; string lengths are counted in
  UTF-16 code units by `jsLength`.
* A value that may be `null` / `undefined` is an `Option`.
* A number read from text by `parseInt` is a `JsNumber`: the nearest double of the
  integer written (`toDouble`), exact below `2 ^ 53`, possibly `Infinity`.
* Browser and network services that are not part of the program (page visits, the
  URL parser, the date parser, the JSON endpoint) are parameters of the definitions.
* The cooperative worker pool is a step function on an explicit state, driven by
  an arbitrary schedule.
-/

namespace MitBlogsScraper

/-! ## Definitions -/

/-! ### JavaScript numbers -/

/-- A JavaScript number that holds an integer, or `Infinity`. -/
inductive JsNumber where
  | finite (v : Int)
  | infinity
deriving DecidableEq, Repr

/-- Number of binary digits of `n`, by at most `fuel` halvings. -/
def bitLength : Nat → Nat → Nat
  | 0, _ => 0
  | fuel + 1, n => if n = 0 then 0 else bitLength fuel (n / 2) + 1

/-- The Number value of the mathematical integer `n`: the nearest double, ties going to
the even significand.  It is exact below `2 ^ 53`, keeps 53 significant binary digits
above, and is `Infinity` from `2 ^ 1024 - 2 ^ 970` on. -/
def toDouble (n : Nat) : JsNumber :=
  if n < 9007199254740992 then JsNumber.finite n
  else
    let shift := bitLength n n - 53
    let q := n >>> shift
    let r := n - (q <<< shift)
    let half := 1 <<< (shift - 1)
    let q' := if half < r ∨ (r = half ∧ q % 2 = 1) then q + 1 else q
    if 1024 < bitLength (q' <<< shift) (q' <<< shift) then JsNumber.infinity
    else JsNumber.finite ((q' <<< shift : Nat) : Int)

/-- The call `Math.max(a, b)`. -/
def jsMax : JsNumber → JsNumber → JsNumber
  | JsNumber.finite a, JsNumber.finite b => JsNumber.finite (max a b)
  | _, _ => JsNumber.infinity

/-- The comparison `a <= b`. -/
def jsLe : JsNumber → JsNumber → Bool
  | JsNumber.finite a, JsNumber.finite b => decide (a ≤ b)
  | _, JsNumber.infinity => true
  | JsNumber.infinity, JsNumber.finite _ => false

/-! ### Rows, seeds and the per-item visit (`processOneWithPage`) -/

/-- Seed metadata of an item (`it.seed`); every field may be missing. -/
structure Seed where
  title : Option String
  author : Option String
  time : Option String
deriving DecidableEq, Repr

/-- The empty seed `{}`. -/
def Seed.empty : Seed := ⟨none, none, none⟩

/-- One work item of the pool: `{ href, seed }`, the seed being optional. -/
structure Item where
  href : String
  seed : Option Seed
deriving DecidableEq, Repr

/-- The object returned by `extractPostDetails`. -/
structure Details where
  title : String
  author : String
  time : String
  articleText : String
  images : List String
  imagesCount : Nat
  commentCount : JsNumber
deriving DecidableEq, Repr

/-- One output row, as built by `processOneWithPage`. -/
structure OutputRow where
  title : String
  author : String
  commentCount : Int
  time : String
  articleContent : String
  imagesInArticle : String
  imageCount : Nat
deriving DecidableEq, Repr

/-- The first argument handed to `processOneWithPage`: `it.href || it` is the href
when it is a non-empty string and the item object itself otherwise. -/
inductive GotoTarget where
  | url (href : String)
  | object (it : Item)
deriving DecidableEq, Repr

/-- JavaScript `a || b` on strings: the empty string is falsy. -/
def strOr (a b : String) : String := if a = "" then b else a

/-- JavaScript `a || b` where `a` may be `undefined`. -/
def optOr (a : Option String) (b : String) : String :=
  match a with
  | none => b
  | some s => strOr s b

/-- The expression `it.href || it`. -/
def gotoTarget (it : Item) : GotoTarget :=
  if it.href = "" then GotoTarget.object it else GotoTarget.url it.href

/-- The expression `it.seed || {}`. -/
def seedOf (it : Item) : Seed := it.seed.getD Seed.empty

/-- The row of the `catch` branch of `processOneWithPage`. -/
def degradedRow (seed : Seed) : OutputRow :=
  { title := optOr seed.title ""
    author := optOr seed.author ""
    commentCount := 0
    time := optOr seed.time ""
    articleContent := ""
    imagesInArticle := ""
    imageCount := 0 }

/-- The row of the `try` branch of `processOneWithPage`, from the details `d`. -/
def mergedRow (d : Details) (seed : Seed) : OutputRow :=
  { title := strOr d.title (optOr seed.title "")
    author := strOr d.author (optOr seed.author "")
    commentCount :=
      match d.commentCount with
      | JsNumber.finite v => v
      | JsNumber.infinity => 0
    time := strOr d.time (optOr seed.time "")
    articleContent := d.articleText
    imagesInArticle := String.intercalate "\n" d.images
    imageCount := d.images.length }

/-- The function `processOneWithPage(href, seed)`.  The parameter `visit` stands for
`p.goto(href)` followed by `extractPostDetails(p)`: it is `none` when either throws
and the extracted details otherwise.  Opening the page (`context.newPage()`, outside
the `try`) is taken to succeed; `p.close()` has its own `catch`. -/
def processOneWithPage (visit : GotoTarget → Option Details) (href : GotoTarget)
    (seed : Seed) : OutputRow :=
  match visit href with
  | some d => mergedRow d seed
  | none => degradedRow seed

/-! ### The worker pool (`runPool`) -/

/-- Where a worker stands in its `while (true)` loop. -/
inductive WorkerState where
  /-- About to execute `const my = idx++`. -/
  | ready
  /-- Suspended in `await processOneWithPage(...)` for the claimed index `my`. -/
  | awaiting (my : Nat) (it : Item)
  /-- Left the loop through `break`. -/
  | finished
deriving DecidableEq, Repr

/-- The shared state of `runPool`: the claim index, the output array (a slot is
`none` while it is still a hole of `new Array(n)`), and the workers. -/
structure PoolState where
  idx : Nat
  out : List (Option OutputRow)
  workers : List WorkerState
deriving DecidableEq, Repr

/-- The state right after `tasks` has been created: `min(concurrency, n)` workers,
none of which has run yet. -/
def poolInit (items : List Item) (concurrency : Nat) : PoolState :=
  { idx := 0
    out := List.replicate items.length none
    workers := List.replicate (min concurrency items.length) WorkerState.ready }

/-- One step of worker `w`.  A ready worker claims `idx++` and either breaks or
starts the visit of `items[my]`; an awaiting worker completes, writes `out[my]` and
goes back to the head of its loop.  `visit i` is the outcome of the visit made for
slot `i`.  A finished or non-existent worker has no step. -/
def poolStep (items : List Item) (visit : Nat → GotoTarget → Option Details)
    (s : PoolState) (w : Nat) : Option PoolState :=
  match s.workers[w]? with
  | none => none
  | some WorkerState.finished => none
  | some WorkerState.ready =>
    match items[s.idx]? with
    | none => some { s with idx := s.idx + 1, workers := s.workers.set w WorkerState.finished }
    | some it =>
      some { s with idx := s.idx + 1, workers := s.workers.set w (WorkerState.awaiting s.idx it) }
  | some (WorkerState.awaiting my it) =>
    some { s with
      out := s.out.set my (some (processOneWithPage (visit my) (gotoTarget it) (seedOf it)))
      workers := s.workers.set w WorkerState.ready }

/-- Run the pool along a schedule (the list of workers that move, in order). -/
def poolExec (items : List Item) (visit : Nat → GotoTarget → Option Details) :
    PoolState → List Nat → Option PoolState
  | s, [] => some s
  | s, w :: ws =>
    match poolStep items visit s w with
    | none => none
    | some s' => poolExec items visit s' ws

/-- All workers have left their loop: `Promise.all(tasks)` resolves and `runPool`
returns `out`. -/
def allFinished (s : PoolState) : Bool :=
  s.workers.all (fun w => w == WorkerState.finished)

/-- The function `runPool(items)` along a schedule: the array `out` once every worker
has finished; `none` when the schedule is not a complete run (it names a worker that
cannot move, or stops before `Promise.all(tasks)` resolves). -/
def runPool (items : List Item) (concurrency : Nat)
    (visit : Nat → GotoTarget → Option Details) (sched : List Nat) :
    Option (List (Option OutputRow)) :=
  match poolExec items visit (poolInit items concurrency) sched with
  | some s => if allFinished s = true then some s.out else none
  | none => none

/-- The row `runPool` is expected to hold in slot `i`. -/
def rowOfItem (visit : Nat → GotoTarget → Option Details) (i : Nat) (it : Item) : OutputRow :=
  processOneWithPage (visit i) (gotoTarget it) (seedOf it)

/-- Number of workers suspended in a visit. -/
def awaitingCount (ws : List WorkerState) : Nat :=
  (ws.filter (fun w => match w with | WorkerState.awaiting _ _ => true | _ => false)).length

/-- Number of workers still in their loop. -/
def liveCount (ws : List WorkerState) : Nat :=
  (ws.filter (fun w => w != WorkerState.finished)).length

/-- Termination measure of the pool. -/
def poolMeasure (n : Nat) (s : PoolState) : Nat :=
  2 * (n - s.idx) + awaitingCount s.workers + liveCount s.workers

/-- The invariant of the pool: slot sizes, what a suspended or finished worker
implies about the claim index, and what every claimed slot holds. -/
structure PoolInv (items : List Item) (visit : Nat → GotoTarget → Option Details)
    (c : Nat) (s : PoolState) : Prop where
  out_len : s.out.length = items.length
  workers_len : s.workers.length = min c items.length
  awaiting_ok : ∀ my it, WorkerState.awaiting my it ∈ s.workers →
    my < s.idx ∧ items[my]? = some it
  finished_ok : WorkerState.finished ∈ s.workers → items.length ≤ s.idx
  slot_ok : ∀ i it, items[i]? = some it → i < s.idx →
    WorkerState.awaiting i it ∈ s.workers ∨ s.out[i]? = some (some (rowOfItem visit i it))

/-! ### Strings: white space, `norm`, case -/

/-- The characters matched by `\s` in a JavaScript regular expression; the same
characters are removed by `String.prototype.trim`. -/
def isJsSpace (c : Char) : Bool :=
  let n := c.toNat
  n == 0x9 || n == 0xA || n == 0xB || n == 0xC || n == 0xD || n == 0x20 || n == 0xA0 ||
  n == 0x1680 || (0x2000 ≤ n && n ≤ 0x200A) || n == 0x2028 || n == 0x2029 || n == 0x202F ||
  n == 0x205F || n == 0x3000 || n == 0xFEFF

/-- The replacement `.replace(/\s+/g, ' ')`: every maximal run of white space becomes
one space.  `inRun` tells that the previous character was white space. -/
def collapseWsAux : Bool → List Char → List Char
  | _, [] => []
  | inRun, c :: cs =>
    if isJsSpace c then
      if inRun then collapseWsAux true cs else ' ' :: collapseWsAux true cs
    else c :: collapseWsAux false cs

/-- The method `.trim()`. -/
def trimChars (l : List Char) : List Char :=
  ((l.dropWhile isJsSpace).reverse.dropWhile isJsSpace).reverse

/-- The helper `norm` on characters: `.replace(/\s+/g, ' ').trim()`. -/
def normChars (l : List Char) : List Char := trimChars (collapseWsAux false l)

/-- The helper `norm = (t) => (t || '').replace(/\s+/g, ' ').trim()`. -/
def norm (t : String) : String := String.mk (normChars t.data)

/-- Length of a string in UTF-16 code units (`.length`). -/
def jsLength (l : List Char) : Nat :=
  (l.map (fun c => if 0xFFFF < c.toNat then 2 else 1)).sum

/-- The mathematical integer written by a string of decimal digits. -/
def digitsValue (ds : List Char) : Nat :=
  ds.foldl (fun acc d => 10 * acc + (d.toNat - 48)) 0

/-- The call `parseInt(ds, 10)` on a non-empty string of decimal digits: the Number
value of the integer written. -/
def parseIntDigits (ds : List Char) : JsNumber := toDouble (digitsValue ds)

/-- Letter folding of a case-insensitive regular expression without the `u` flag, as
far as patterns of ASCII letters are concerned: only `A`-`Z` fold onto `a`-`z`. -/
def foldAscii (l : List Char) : List Char := l.map Char.toLower

/-! ### Comment count on the host document (`extractLabelCount` and tiers 1-3) -/

/-- The match `t.match(/^(\d+)\s+Comments?$/i)`: the captured digits `m[1]` of a
successful match. -/
def matchLabel (t : List Char) : Option (List Char) :=
  let ds := t.takeWhile Char.isDigit
  let rest := t.dropWhile Char.isDigit
  let ws := rest.takeWhile isJsSpace
  let word := rest.dropWhile isJsSpace
  if ds = [] then none
  else if ws = [] then none
  else if foldAscii word = "comment".data ∨ foldAscii word = "comments".data then
    some ds
  else none

/-- The integer written in the text `t` when `t` is a comment label: the mathematical
value of the digits captured by `matchLabel` on the normalised text. -/
def labelInteger (t : String) : Option Nat :=
  (matchLabel (norm t).data).map digitsValue

/-- The largest integer written in a label among `texts`, and 0 when there is none. -/
def maxLabelInteger (texts : List String) : Nat :=
  texts.foldl (fun best t => match labelInteger t with | some n => max best n | none => best) 0

/-- The helper `extractLabelCount(scopeEls)`, on the `textContent` of the elements. -/
def extractLabelCount (scopeEls : List String) : JsNumber :=
  scopeEls.foldl
    (fun best t =>
      match matchLabel (norm t).data with
      | some ds => jsMax best (parseIntDigits ds)
      | none => best)
    (JsNumber.finite 0)

/-- An element returned by
`document.querySelectorAll('h1,h2,h3,h4,h5,h6,span,div,p,a,button,strong,em')`. -/
structure ScanEl where
  textContent : String
  /-- The filter of tier 1: the element follows `articleEl` in document order and is
  not contained in it. -/
  followsArticle : Bool
deriving DecidableEq, Repr

/-- What tiers 1-3 read from the host document. -/
structure HostDocument where
  /-- Whether `articleEl` is non-null. -/
  hasArticle : Bool
  /-- The elements of the thirteen-tag selector, in document order. -/
  candidates : List ScanEl
  /-- Text of the elements of `'#comments h2, #comments h3, .comments h2, .comments h3'`. -/
  commentHeaders : List String
deriving DecidableEq, Repr

/-- Tiers 1-3 of the comment count in `extractPostDetails`. -/
def hostCommentCount (doc : HostDocument) : JsNumber :=
  let c1 :=
    if doc.hasArticle then
      extractLabelCount ((doc.candidates.filter (fun el => el.followsArticle)).map
        (fun el => el.textContent))
    else JsNumber.finite 0
  let c2 :=
    if c1 = JsNumber.finite 0 then
      extractLabelCount (doc.candidates.map (fun el => el.textContent))
    else c1
  if c2 = JsNumber.finite 0 then extractLabelCount doc.commentHeaders else c2

/-- The text `t`, once normalised, reads exactly `N Comment` or `N Comments` (in any
letter case): decimal digits, one space, the word. -/
def IsLabel (t : String) (N : Nat) : Prop :=
  ∃ ds word : List Char, ds ≠ [] ∧ (∀ d ∈ ds, d.isDigit = true) ∧
    (foldAscii word = "comment".data ∨ foldAscii word = "comments".data) ∧
    (norm t).data = ds ++ ' ' :: word ∧ N = digitsValue ds

/-- The number `m` is the maximum of the labels among `texts`, and 0 when there is
none. -/
def IsMaxLabel (texts : List String) (m : Nat) : Prop :=
  (∀ t ∈ texts, ∀ N, IsLabel t N → N ≤ m) ∧
  ((∃ t ∈ texts, IsLabel t m) ∨ (m = 0 ∧ ∀ t ∈ texts, ∀ N, ¬ IsLabel t N))

/-- Every white-space character of `l` is a plain space and no two of them are
adjacent. -/
def SingleSpaced (l : List Char) : Prop :=
  (∀ c ∈ l, isJsSpace c = true → c = ' ') ∧
  List.Chain' (fun a b => ¬ (isJsSpace a = true ∧ isJsSpace b = true)) l

/-! ### Title and author resolution (`extractPostDetails`, lines 87-107) -/

/-- Lower-case form of one character under `String.prototype.toLowerCase`, for Basic
Latin, Latin-1 and U+0130 (capital I with dot above), the one character whose
lower-case form is longer than itself: it becomes `i` followed by U+0307.  Other
characters are left as they are. -/
def lowerChar (c : Char) : List Char :=
  let n := c.toNat
  if n = 0x130 then ['i', Char.ofNat 0x307]
  else if (65 ≤ n ∧ n ≤ 90) ∨ (0xC0 ≤ n ∧ n ≤ 0xDE ∧ n ≠ 0xD7) then [Char.ofNat (n + 32)]
  else [c]

/-- The method `.toLowerCase()`. -/
def jsToLowerCase (l : List Char) : List Char := (l.map lowerChar).flatten

/-- The method `s.lastIndexOf(pat)`, scanning `s` from position `i`; `acc` is the last
match found so far and `none` stands for `-1`. -/
def lastIndexOfFrom (pat : List Char) : List Char → Nat → Option Nat → Option Nat
  | [], i, acc => if pat = [] then some i else acc
  | c :: cs, i, acc =>
    lastIndexOfFrom pat cs (i + 1) (if pat.isPrefixOf (c :: cs) then some i else acc)

/-- The method `s.lastIndexOf(pat)`. -/
def lastIndexOf (pat s : List Char) : Option Nat := lastIndexOfFrom pat s 0 none

/-- The replacement `.replace(/^by\s+/i, '')`. -/
def stripByPrefix (l : List Char) : List Char :=
  match l with
  | b :: y :: rest =>
    if foldAscii [b, y] = ['b', 'y'] ∧ rest.takeWhile isJsSpace ≠ [] then
      rest.dropWhile isJsSpace
    else l
  | _ => l

/-- What the title and author resolution reads from the document. -/
structure TitleAuthorSources where
  /-- `titleEl?.textContent` for the first of `article h1`, `h1.entry-title`,
  `h1.post-title`, `h1`. -/
  titleElText : Option String
  /-- `ogTitleEl?.getAttribute('content')`. -/
  ogTitle : Option String
  /-- `document.title`. -/
  documentTitle : String
  /-- `authorEl?.textContent` for the first matching author selector. -/
  authorElText : Option String
  /-- The `content` of `meta[name="author"][content]`, when present. -/
  metaAuthor : Option String
deriving DecidableEq, Repr

/-- The title before the `by` rule: `norm(titleEl?.textContent || docTitle)`. -/
def resolvedTitle (src : TitleAuthorSources) : String :=
  norm (optOr src.titleElText (optOr src.ogTitle (strOr src.documentTitle "")))

/-- The author before the `by` rule: the structural selectors, then the meta tag. -/
def resolvedAuthor (src : TitleAuthorSources) : String :=
  let author := String.mk (stripByPrefix (norm (optOr src.authorElText "")).data)
  if author = "" then
    match src.metaAuthor with
    | some c => norm c
    | none => author
  else author

/-- The `by` rule applied to a resolved title and author: the pair `(title, author)`
of the record. -/
def applyByRule (title author : String) : String × String :=
  match lastIndexOf " by ".data (jsToLowerCase title.data) with
  | none => (title, author)
  | some byIdx =>
    let t := norm (String.mk (title.data.take byIdx))
    let a := norm (String.mk (title.data.drop (byIdx + 4)))
    (if t = "" then title else t, if a = "" then author else a)

/-- The pair `(title, author)` of the record returned by `extractPostDetails`. -/
def resolveTitleAuthor (src : TitleAuthorSources) : String × String :=
  applyByRule (resolvedTitle src) (resolvedAuthor src)

/-! ### Body text: the block branch of `extractPostDetails` (lines 137-156) -/

/-- The replacement `.replace(/\r\n/g, '\n')`. -/
def replaceCRLF : List Char → List Char
  | [] => []
  | [c] => [c]
  | c :: d :: rest =>
    if c = '\r' ∧ d = '\n' then '\n' :: replaceCRLF rest else c :: replaceCRLF (d :: rest)

/-- The class `[​‌‍⁠]` of `ZW_RE`. -/
def isZeroWidth (c : Char) : Bool :=
  let n := c.toNat
  n == 0x200B || n == 0x200C || n == 0x200D || n == 0x2060

/-- The replacement `.replace(ZW_RE, '')`. -/
def stripZeroWidth (l : List Char) : List Char := l.filter (fun c => !isZeroWidth c)

/-- The replacement `.replace(/\n{2,}/g, '\n')`: every maximal run of newlines leaves
one newline.  `inRun` tells that the previous character was a newline. -/
def collapseNewlinesAux : Bool → List Char → List Char
  | _, [] => []
  | inRun, c :: cs =>
    if c = '\n' then
      if inRun then collapseNewlinesAux true cs else '\n' :: collapseNewlinesAux true cs
    else c :: collapseNewlinesAux false cs

/-- The replacement `.replace(/(\S)\n(\S)/g, '$1 $2')`: matches are looked for from left
to right and the search resumes after the last character of a match. -/
def softBreaks : List Char → List Char
  | [] => []
  | [a] => [a]
  | [a, n] => [a, n]
  | a :: n :: b :: rest =>
    if isJsSpace a = false ∧ n = '\n' ∧ isJsSpace b = false then
      a :: ' ' :: b :: softBreaks rest
    else a :: softBreaks (n :: b :: rest)

/-- The per-block normalisation of `el.innerText`, before the list-item prefix. -/
def normalizeBlock (innerText : String) : List Char :=
  softBreaks (collapseNewlinesAux false (stripZeroWidth (replaceCRLF innerText.data)))

/-- A block-level element of the cleaned article body. -/
structure Block where
  /-- Whether `el.tagName.toLowerCase() === 'li'`. -/
  isLi : Bool
  innerText : String
deriving DecidableEq, Repr

/-- The string pushed onto `parts` for one block. -/
def blockPart (b : Block) : List Char :=
  let t := normalizeBlock b.innerText
  if b.isLi then (if t = [] then t else '-' :: ' ' :: t) else t

/-- The value `parts.join('\n\n')` of the block branch (taken when `blocks.length` is
not 0). -/
def blocksText (blocks : List Block) : List Char :=
  List.intercalate ['\n', '\n'] (blocks.map blockPart)

/-- The replacement `.replace(/\n{3,}/g, '\n\n')` of the fallback branch: every run of
three or more newlines leaves two.  `k` is the number of newlines just read. -/
def collapseBlankLinesAux : Nat → List Char → List Char
  | _, [] => []
  | k, c :: cs =>
    if c = '\n' then
      if 2 ≤ k then collapseBlankLinesAux k cs else '\n' :: collapseBlankLinesAux (k + 1) cs
    else c :: collapseBlankLinesAux 0 cs

/-- The fallback branch (taken when `blocks.length` is 0): the `innerText` of the whole
container with line ends unified, zero-width characters stripped and blank-line runs
collapsed. -/
def fallbackText (innerText : String) : List Char :=
  collapseBlankLinesAux 0 (stripZeroWidth (replaceCRLF innerText.data))

/-- The value of `articleText` when the article body exists: the block branch when
there are blocks, the fallback branch otherwise. -/
def articleTextOf (blocks : List Block) (containerInnerText : String) : List Char :=
  if blocks ≠ [] then blocksText blocks else fallbackText containerInnerText

/-- Newline runs stay below `bound`: reading `l` after `k` newlines, no run of
newlines reaches length `bound`. -/
def runsBelow (bound : Nat) : Nat → List Char → Bool
  | _, [] => true
  | k, c :: cs =>
    if c = '\n' then decide (k + 1 < bound) && runsBelow bound (k + 1) cs
    else runsBelow bound 0 cs

/-! ### Responsive candidate lists (`fromSrcset`) -/

/-- The method `.split(',')`. -/
def splitComma : List Char → List (List Char)
  | [] => [[]]
  | c :: cs =>
    if c = ',' then [] :: splitComma cs
    else
      match splitComma cs with
      | p :: ps => (c :: p) :: ps
      | [] => [[c]]

/-- What the loop of `fromSrcset` reads from one candidate string `p`. -/
structure SrcsetCandidate where
  /-- The value `p.replace(/\s+\d+w$/, '').trim()`. -/
  url : List Char
  /-- The value `m ? parseInt(m[1], 10) : 0`. -/
  w : JsNumber
  /-- Whether `p.match(/\s+(\d+)w$/)` succeeded: the candidate declares a width. -/
  hasWidth : Bool
deriving DecidableEq, Repr

/-- One candidate string: the match of `/\s+(\d+)w$/` is read off the reversed string,
a `w`, then the digits, then the white space in front of them. -/
def parseCandidate (p : List Char) : SrcsetCandidate :=
  match p.reverse with
  | [] => ⟨trimChars p, JsNumber.finite 0, false⟩
  | c :: r =>
    let ds := r.takeWhile Char.isDigit
    let r2 := r.dropWhile Char.isDigit
    let ws := r2.takeWhile isJsSpace
    let rest := r2.dropWhile isJsSpace
    if c = 'w' ∧ ds ≠ [] ∧ ws ≠ [] then
      ⟨trimChars rest.reverse, parseIntDigits ds.reverse, true⟩
    else ⟨trimChars p, JsNumber.finite 0, false⟩

/-- The candidates of a candidate list: `srcset.split(',').map(s => s.trim())`, each
one parsed. -/
def srcsetCandidates (srcset : String) : List SrcsetCandidate :=
  ((splitComma srcset.data).map trimChars).map parseCandidate

/-- One iteration of the loop of `fromSrcset` on the state `(best, bestW)`: the test is
`url && w >= bestW`. -/
def srcsetStep (st : List Char × JsNumber) (c : SrcsetCandidate) : List Char × JsNumber :=
  if c.url ≠ [] ∧ jsLe st.2 c.w = true then (c.url, c.w) else st

/-- The function `fromSrcset(srcset)`; the argument is `none` for `null`. -/
def fromSrcset (srcset : Option String) : String :=
  match srcset with
  | none => ""
  | some s =>
    if s = "" then ""
    else
      let parts := (splitComma s.data).map trimChars
      let best := ((parts.map parseCandidate).foldl srcsetStep ([], JsNumber.finite (-1))).1
      if best ≠ [] then String.mk best else String.mk (parts.headD [])

/-- A candidate as it is written in a candidate list: white space, the URL, white
space, the decimal digits of the width, the letter `w`, white space. -/
structure WrittenCandidate where
  lead : List Char
  url : List Char
  gap : List Char
  digits : List Char
  trail : List Char
deriving DecidableEq, Repr

/-- The text of a written candidate. -/
def WrittenCandidate.text (c : WrittenCandidate) : List Char :=
  c.lead ++ (c.url ++ (c.gap ++ (c.digits ++ 'w' :: c.trail)))

/-- The candidate has a non-empty URL and a width descriptor: the URL has no comma and
neither starts nor ends with white space, the digits are decimal digits and there is at
least one, white space separates them from the URL, and what surrounds the candidate
is white space. -/
def WrittenCandidate.WellFormed (c : WrittenCandidate) : Prop :=
  (∀ x ∈ c.lead, isJsSpace x = true) ∧ (∀ x ∈ c.trail, isJsSpace x = true) ∧
  c.gap ≠ [] ∧ (∀ x ∈ c.gap, isJsSpace x = true) ∧
  c.digits ≠ [] ∧ (∀ d ∈ c.digits, d.isDigit = true) ∧
  c.url ≠ [] ∧ ',' ∉ c.url ∧
  (∀ y ∈ c.url.head?, isJsSpace y = false) ∧ (∀ y ∈ c.url.getLast?, isJsSpace y = false)

/-- The candidate list written from the candidates `cs`: their texts, separated by
commas. -/
def srcsetText (cs : List WrittenCandidate) : String :=
  String.mk (List.intercalate [','] (cs.map WrittenCandidate.text))

/-! ### Media keys and the media collector (lines 166-278) -/

/-- A parsed URL, as the object `new URL(u, location.href)` exposes it. -/
structure Url where
  /-- The scheme, without the colon. -/
  scheme : String
  username : String
  password : String
  /-- The host name; `none` for a URL without host (`data:`, `mailto:`). -/
  host : Option String
  /-- The port in decimal, when one is given and is not the default one. -/
  port : Option String
  /-- The serialised path (`pathname`). -/
  path : String
  /-- The query without `?`; `none` when `search` is empty. -/
  query : Option String
  /-- The fragment without `#`; `none` when `hash` is empty. -/
  fragment : Option String
deriving DecidableEq, Repr

/-- The getter `hostname`. -/
def Url.hostname (x : Url) : String := x.host.getD ""

/-- The getter `href`: the URL serialiser. -/
def Url.href (x : Url) : String :=
  x.scheme ++ ":" ++
  (match x.host with
    | some h =>
      "//" ++
      (if x.username ≠ "" ∨ x.password ≠ "" then
        x.username ++ (if x.password ≠ "" then ":" ++ x.password else "") ++ "@"
      else "") ++
      h ++
      (match x.port with
        | some p => ":" ++ p
        | none => "")
    | none => "") ++
  x.path ++
  (match x.query with
    | some q => "?" ++ q
    | none => "") ++
  (match x.fragment with
    | some f => "#" ++ f
    | none => "")

/-- The helper `toAbs(u)`; `parseUrl u` stands for `new URL(u, location.href)` and is
`none` when the constructor throws. -/
def toAbs (parseUrl : String → Option Url) (u : String) : String :=
  match parseUrl u with
  | some x => x.href
  | none => ""

/-- The URL after the five assignments of `toKey`: `hash`, `search`, `username` and
`password` emptied and `hostname` replaced by its lower-case form (a URL without host
stays without host). -/
def Url.stripped (x : Url) : Url :=
  { x with
    fragment := none
    query := none
    username := ""
    password := ""
    host := x.host.map (fun h => String.mk (jsToLowerCase h.data)) }

/-- The helper `toKey(u)`: the MediaKey of `u`. -/
def toKey (parseUrl : String → Option Url) (u : String) : String :=
  match parseUrl u with
  | some x => x.stripped.href
  | none => ""

/-- The attributes `getImgUrl` reads from an `img` element. -/
structure ImgEl where
  flickityLazyloadSrc : Option String
  flickityLazyloadSrcset : Option String
  dataLazySrc : Option String
  dataSrc : Option String
  dataOriginal : Option String
  src : Option String
  currentSrc : String
  dataLazySrcset : Option String
  srcset : Option String
deriving DecidableEq, Repr

/-- The helper `getImgUrl(img)`: the first non-empty value of the chain. -/
def getImgUrl (img : ImgEl) : String :=
  optOr img.flickityLazyloadSrc
    (strOr (fromSrcset img.flickityLazyloadSrcset)
      (optOr img.dataLazySrc
        (optOr img.dataSrc
          (optOr img.dataOriginal
            (optOr img.src
              (strOr img.currentSrc
                (strOr (fromSrcset img.dataLazySrcset)
                  (strOr (fromSrcset img.srcset) ""))))))))

/-- The helper `isArticleImage(url)`. -/
def isArticleImage (parseUrl : String → Option Url) (url : String) : Bool :=
  match parseUrl url with
  | some u =>
    decide ("mitadmissions.org".data <:+ u.hostname.data) &&
      decide ("/wp-content/uploads/".data <:+: u.path.data)
  | none => false

/-- A character that `.` of a regular expression does not match. -/
def isLineTerminator (c : Char) : Bool :=
  let n := c.toNat
  n == 0xA || n == 0xD || n == 0x2028 || n == 0x2029

/-- The test `/\.(e1|e2|...)(\?.*)?$/i.test(href)` for the extensions `exts` (given in
lower case). -/
def hasExtension (exts : List String) (href : String) : Bool :=
  href.data.tails.any (fun t =>
    match t with
    | [] => false
    | c :: r =>
      c == '.' && exts.any (fun e =>
        foldAscii (r.take e.data.length) == e.data &&
          (match r.drop e.data.length with
            | [] => true
            | q :: rest => q == '?' && rest.all (fun d => !isLineTerminator d))))

/-- The test
`/youtube\.com$|(^|\.)youtu\.be$|(^|\.)vimeo\.com$|(^|\.)player\.vimeo\.com$/i` on a
host name. -/
def isVideoHost (hostname : String) : Bool :=
  let h := foldAscii hostname.data
  decide ("youtube.com".data <:+ h) ||
  h == "youtu.be".data || decide (".youtu.be".data <:+ h) ||
  h == "vimeo.com".data || decide (".vimeo.com".data <:+ h) ||
  h == "player.vimeo.com".data || decide (".player.vimeo.com".data <:+ h)

/-- The elements of the cleaned article body that the collector reads. -/
structure MediaInputs where
  /-- The elements of `querySelectorAll('img')`. -/
  imgs : List ImgEl
  /-- The `srcset` of the elements of `querySelectorAll('picture source[srcset]')`. -/
  pictureSrcsets : List String
  /-- The `href` of the elements of `querySelectorAll('a[href]')`. -/
  anchorHrefs : List String
  /-- The `src` of the elements of `querySelectorAll('video[src], video source[src]')`. -/
  videoSrcs : List String
  /-- The `src` of the elements of `querySelectorAll('iframe[src]')`. -/
  iframeSrcs : List String
deriving DecidableEq, Repr

/-- What sources 1-3 do with a URL `src`: the key is offered when it is non-empty and
the absolute URL is an article image. -/
def imageOffer (parseUrl : String → Option Url) (src : String) : Option String :=
  let abs := toAbs parseUrl src
  let key := toKey parseUrl abs
  if key ≠ "" ∧ isArticleImage parseUrl abs = true then some key else none

/-- What sources 4 and 6 do with a URL `src`: the key is offered when non-empty. -/
def videoOffer (parseUrl : String → Option Url) (src : String) : Option String :=
  let abs := toAbs parseUrl src
  let key := toKey parseUrl abs
  if key ≠ "" then some key else none

/-- What source 5 does with the `src` of an `iframe`: `new URL(abs)` throws on the empty
string; otherwise the key is offered when the host is a video host. -/
def iframeOffer (parseUrl : String → Option Url) (src : String) : Option String :=
  let abs := toAbs parseUrl src
  let key := toKey parseUrl abs
  if abs = "" then none
  else
    match parseUrl abs with
    | some u => if isVideoHost u.hostname = true ∧ key ≠ "" then some key else none
    | none => none

/-- The keys handed to `set.add`, in the order of the six loops. -/
def offeredKeys (parseUrl : String → Option Url) (inp : MediaInputs) : List String :=
  inp.imgs.filterMap (fun img => imageOffer parseUrl (getImgUrl img)) ++
  inp.pictureSrcsets.filterMap (fun s => imageOffer parseUrl (fromSrcset (some s))) ++
  (inp.anchorHrefs.filter (hasExtension ["jpg", "jpeg", "png", "gif", "webp"])).filterMap
    (imageOffer parseUrl) ++
  inp.videoSrcs.filterMap (videoOffer parseUrl) ++
  inp.iframeSrcs.filterMap (iframeOffer parseUrl) ++
  (inp.anchorHrefs.filter (hasExtension ["mp4", "webm", "ogg"])).filterMap
    (videoOffer parseUrl)

/-- The method `set.add(key)` on a `Set` kept in insertion order. -/
def setAdd (set : List String) (key : String) : List String :=
  if key ∈ set then set else set ++ [key]

/-- The list `images = Array.from(set)` after the six loops. -/
def collectMedia (parseUrl : String → Option Url) (inp : MediaInputs) : List String :=
  (offeredKeys parseUrl inp).foldl setAdd []

/-- Two parsed URLs differ at most in query string, fragment, credentials and
letter case of the host. -/
def Url.SameMedia (x y : Url) : Prop :=
  x.scheme = y.scheme ∧
  x.host.map (fun h => jsToLowerCase h.data) = y.host.map (fun h => jsToLowerCase h.data) ∧
  x.port = y.port ∧ x.path = y.path

/-! ### Keeping first occurrences -/

/-- Keep the elements whose key has not been seen before: the filter
`if (seen.has(k)) return false; seen.add(k); return true`. -/
def dedupSeen {α β : Type} [DecidableEq β] (key : α → β) : List β → List α → List α
  | _, [] => []
  | seen, x :: xs =>
    if key x ∈ seen then dedupSeen key seen xs
    else x :: dedupSeen key (key x :: seen) xs

/-! ### The listing page (`extractListing`) -/

/-- One step of the walk up the DOM from an anchor: what the two `querySelector`
calls on the element `el` find. -/
structure AncestorLevel where
  /-- `authorEl.textContent`, when `authorEl` is found. -/
  authorText : Option String
  /-- `(timeEl.getAttribute('datetime'), timeEl.textContent)`, when `timeEl` is found. -/
  timeEl : Option (Option String × String)
deriving DecidableEq, Repr

/-- An `a` element of the listing page. -/
structure Anchor where
  /-- The value `a.href || ''`. -/
  href : String
  textContent : String
  /-- The anchor itself, then its ancestors, from the nearest one upwards. -/
  levels : List AncestorLevel
deriving DecidableEq, Repr

/-- An element of the array returned by `extractListing`. -/
structure ListingEntry where
  title : String
  href : String
  author : String
  time : String
deriving DecidableEq, Repr

/-- The test `/[?&](paged|page)=/i.test(href)`. -/
def hasPageParam (href : List Char) : Bool :=
  href.tails.any (fun t =>
    match t with
    | [] => false
    | c :: r =>
      (c == '?' || c == '&') &&
        (foldAscii (r.take 6) == "paged=".data || foldAscii (r.take 5) == "page=".data))

/-- The predicate `isPostHref(href)`. -/
def isPostHref (href : String) : Bool :=
  if href = "" then false
  else if ¬ "/blogs/entry/".data <:+: href.data then false
  else if "/blogs".data <:+ href.data ∨ "/blogs/".data <:+ href.data then false
  else if "/category/".data <:+: href.data ∨ "/tag/".data <:+: href.data ∨
      "/author/".data <:+: href.data then false
  else if hasPageParam href.data = true then false
  else if ['#'] <:+: href.data then false
  else true

/-- The walk `for (let i = 0; i < 6 && el; i++)` on the levels of an anchor; the state
is `(author, time)`. -/
def seedWalk (levels : List AncestorLevel) : String × String :=
  (levels.take 6).foldl
    (fun st lvl =>
      let author :=
        match lvl.authorText with
        | some t => if st.1 = "" then String.mk (stripByPrefix (norm t).data) else st.1
        | none => st.1
      let time :=
        match lvl.timeEl with
        | some (datetime, text) => if st.2 = "" then optOr datetime (norm text) else st.2
        | none => st.2
      (author, time))
    ("", "")

/-- The entry pushed for an anchor that passes the three tests. -/
def entryOf (a : Anchor) : ListingEntry :=
  { title := norm a.textContent
    href := a.href
    author := (seedWalk a.levels).1
    time := (seedWalk a.levels).2 }

/-- The third test of the loop passes: `title.length < 5` is false. -/
def titleLongEnough (a : Anchor) : Bool := decide (5 ≤ jsLength (norm a.textContent).data)

/-- The loop `for (const a of nodes)` on the state `(seen, out)`. -/
def listingLoop : List Anchor → List String × List ListingEntry → List String × List ListingEntry
  | [], st => st
  | a :: rest, st =>
    if isPostHref a.href = false then listingLoop rest st
    else if a.href ∈ st.1 then listingLoop rest st
    else if titleLongEnough a = false then listingLoop rest st
    else listingLoop rest (st.1 ++ [a.href], st.2 ++ [entryOf a])

/-- The function `extractListing`, on the anchors of the page in document order. -/
def extractListing (nodes : List Anchor) : List ListingEntry :=
  (listingLoop nodes ([], [])).2.take 20

/-- The invariant of the loop of `extractListing` after the anchors `done` have been
read. -/
structure ListingInv (done : List Anchor) (st : List String × List ListingEntry) : Prop where
  seen_eq : st.1 = st.2.map (fun e => e.href)
  nodup : (st.2.map (fun e => e.href)).Nodup
  entries : ∀ e ∈ st.2, isPostHref e.href = true ∧
    ∃ pre a post, done = pre ++ a :: post ∧ e = entryOf a ∧ titleLongEnough a = true ∧
      ∀ x ∈ pre, x.href = a.href → titleLongEnough x = false
  seen_all : ∀ x ∈ done, isPostHref x.href = true → titleLongEnough x = true → x.href ∈ st.1

/-! ### The paginated source (`getAllPostLinks`) -/

/-- An element of the JSON array of one page: `{ link, date }`. -/
structure PostItem where
  link : String
  date : Option String
deriving DecidableEq, Repr

/-- The response to the request of one page. -/
structure PageResponse where
  /-- The value `resp.ok()`. -/
  ok : Bool
  /-- The value `resp.headers()['x-wp-totalpages'] || resp.headers()['X-WP-TotalPages']`. -/
  totalPagesHeader : Option String
  /-- The value `await resp.json()`. -/
  data : List PostItem
deriving DecidableEq, Repr

/-- The call `parseInt(s, 10)` as far as `Number.isFinite` lets its value through:
leading white space, an optional sign, then the longest run of decimal digits, read as
a Number; `none` stands for `NaN` and for an infinite value. -/
def parseInt10 (s : List Char) : Option Int :=
  let t := s.dropWhile isJsSpace
  let neg := t.head? = some '-'
  let body := if t.head? = some '-' ∨ t.head? = some '+' then t.tail else t
  let ds := body.takeWhile Char.isDigit
  if ds = [] then none
  else
    match parseIntDigits ds with
    | JsNumber.finite v => some (if neg then -v else v)
    | JsNumber.infinity => none

/-- The test `sinceISO && date && new Date(date) < new Date(sinceISO)`.  The parameter
`parseDate s` stands for the time value of `new Date(s)`, `none` for an invalid date. -/
def isBeforeSince (parseDate : String → Option Int) (sinceISO : Option String)
    (date : Option String) : Bool :=
  match sinceISO, date with
  | some s, some d =>
    if s = "" ∨ d = "" then false
    else
      match parseDate d, parseDate s with
      | some td, some ts => decide (td < ts)
      | _, _ => false
  | _, _ => false

/-- The object `{ href: link, seed: { time: date } }` pushed for an item. -/
def linkOf (it : PostItem) : Item :=
  { href := it.link, seed := some { title := none, author := none, time := it.date } }

/-- The links one page contributes: its items, in order, without those dated before
`sinceISO`. -/
def pageLinks (parseDate : String → Option Int) (sinceISO : Option String)
    (resp : PageResponse) : List Item :=
  (resp.data.filter (fun it => !isBeforeSince parseDate sinceISO it.date)).map linkOf

/-- The loop `while (true)` of `getAllPostLinks` on the state
`(links, pageNo, totalPages)`; `fetched` records the pages requested so far and
`fetch p` is the response to the request of page `p`.  The result is `none` when the
loop has not ended within `fuel` iterations. -/
def pagesLoop (fetch : Nat → PageResponse) (parseDate : String → Option Int)
    (sinceISO : Option String) :
    Nat → List Item → Nat → Int → List Nat → Option (List Item × List Nat)
  | 0, _, _, _, _ => none
  | fuel + 1, links, pageNo, totalPages, fetched =>
    let resp := fetch pageNo
    if resp.ok = false then some (links, fetched ++ [pageNo])
    else
      let totalPages' :=
        match parseInt10 (optOr resp.totalPagesHeader "1").data with
        | some tp => tp
        | none => totalPages
      let links' := links ++ pageLinks parseDate sinceISO resp
      if totalPages' < ((pageNo + 1 : Nat) : Int) then some (links', fetched ++ [pageNo])
      else pagesLoop fetch parseDate sinceISO fuel links' (pageNo + 1) totalPages'
        (fetched ++ [pageNo])

/-- The function `getAllPostLinks`: the loop from page 1, then the filter that keeps the
first link of every href.  The second component is the list of pages requested. -/
def getAllPostLinks (fetch : Nat → PageResponse) (parseDate : String → Option Int)
    (sinceISO : Option String) (fuel : Nat) : Option (List Item × List Nat) :=
  match pagesLoop fetch parseDate sinceISO fuel [] 1 1 [] with
  | some (links, fetched) => some (dedupSeen (fun x => x.href) [] links, fetched)
  | none => none

/-! ### Concrete inputs used by the worked instances -/

/-- A candidate list with four candidates, two of which declare the largest width. -/
def exampleSrcset : List WrittenCandidate :=
  [⟨[], "s.jpg".data, [' '], "300".data, []⟩, ⟨[' '], "m.jpg".data, [' '], "768".data, []⟩,
   ⟨[' '], "l.jpg".data, [' '], "768".data, []⟩, ⟨[' '], "t.jpg".data, [' '], "150".data, []⟩]

/-- A two-page collection; both pages report two pages in total. -/
def examplePages (p : Nat) : PageResponse :=
  if p = 1 then
    ⟨true, some "2", [⟨"https://mitadmissions.org/blogs/entry/c/", some "2024-03-01T00:00:00"⟩,
      ⟨"https://mitadmissions.org/blogs/entry/b/", some "2024-02-01T00:00:00"⟩]⟩
  else if p = 2 then
    ⟨true, some "2", [⟨"https://mitadmissions.org/blogs/entry/b/", some "2024-02-01T00:00:00"⟩,
      ⟨"https://mitadmissions.org/blogs/entry/a/", some "2024-01-01T00:00:00"⟩]⟩
  else ⟨false, none, []⟩

/-- Time values of the dates of `examplePages`, in days. -/
def exampleDates (s : String) : Option Int :=
  if s = "2024-03-01T00:00:00" then some 60
  else if s = "2024-02-01T00:00:00" then some 31
  else if s = "2024-01-01T00:00:00" then some 0
  else none

/-- A URL parser defined on three spellings of one image URL. -/
def exampleParseUrl (u : String) : Option Url :=
  if u = "https://user:pw@MITAdmissions.org/wp-content/uploads/a.jpg?w=300#top" then
    some ⟨"https", "user", "pw", some "mitadmissions.org", none,
      "/wp-content/uploads/a.jpg", some "w=300", some "top"⟩
  else if u = "https://user:pw@mitadmissions.org/wp-content/uploads/a.jpg?w=300#top" then
    some ⟨"https", "user", "pw", some "mitadmissions.org", none,
      "/wp-content/uploads/a.jpg", some "w=300", some "top"⟩
  else if u = "https://mitadmissions.org/wp-content/uploads/a.jpg" then
    some ⟨"https", "", "", some "mitadmissions.org", none,
      "/wp-content/uploads/a.jpg", none, none⟩
  else none

/-! ### The content-site filter of sources 1-3 -/

/-- The host is the content site in the words of the specification:
`mitadmissions.org` itself or a subdomain of it. -/
def IsContentSiteHost (hostname : String) : Prop :=
  hostname.data = "mitadmissions.org".data ∨ ".mitadmissions.org".data <:+ hostname.data

/-- The URLs obtained by sources 1-3, in the order of the three loops: `getImgUrl(img)`
of every image, `fromSrcset` of every picture source, and the `href` of every link
that passes the image-extension test. -/
def imageSourceUrls (inp : MediaInputs) : List String :=
  inp.imgs.map getImgUrl ++
  inp.pictureSrcsets.map (fun s => fromSrcset (some s)) ++
  inp.anchorHrefs.filter (hasExtension ["jpg", "jpeg", "png", "gif", "webp"])

/-- A URL parser defined on three absolute URLs of the host `notmitadmissions.org`. -/
def exampleForeignParseUrl (u : String) : Option Url :=
  if u = "https://notmitadmissions.org/wp-content/uploads/a.jpg" then
    some ⟨"https", "", "", some "notmitadmissions.org", none,
      "/wp-content/uploads/a.jpg", none, none⟩
  else if u = "https://notmitadmissions.org/wp-content/uploads/b.png" then
    some ⟨"https", "", "", some "notmitadmissions.org", none,
      "/wp-content/uploads/b.png", none, none⟩
  else if u = "https://notmitadmissions.org/wp-content/uploads/c.gif" then
    some ⟨"https", "", "", some "notmitadmissions.org", none,
      "/wp-content/uploads/c.gif", none, none⟩
  else none

/-- An article body with one image, one picture source and one image link, all three
hosted on `notmitadmissions.org`. -/
def exampleForeignMedia : MediaInputs :=
  { imgs := [⟨none, none, none, none, none,
      some "https://notmitadmissions.org/wp-content/uploads/a.jpg", "", none, none⟩]
    pictureSrcsets := ["https://notmitadmissions.org/wp-content/uploads/b.png 800w"]
    anchorHrefs := ["https://notmitadmissions.org/wp-content/uploads/c.gif"]
    videoSrcs := []
    iframeSrcs := [] }

/-! ## Theorems -/

/-! ### Lists: replacing one element -/

theorem mem_set_of_mem_of_ne {α : Type} {l : List α} {w : Nat} {x y b : α}
    (hx : x ∈ l) (hw : l[w]? = some y) (hne : x ≠ y) : x ∈ l.set w b := by
  obtain ⟨k, hk, rfl⟩ := List.getElem_of_mem hx
  have hkw : w ≠ k := by
    rintro rfl
    rw [List.getElem?_eq_getElem hk] at hw
    exact hne (Option.some.inj hw)
  have hk2 : k < (l.set w b).length := by simpa using hk
  have : (l.set w b)[k] = l[k] := by simp [List.getElem_set, hkw]
  rw [← this]
  exact List.getElem_mem hk2

theorem filter_length_set {α : Type} (p : α → Bool) :
    ∀ (l : List α) (w : Nat) (a b : α), l[w]? = some a →
      ((l.set w b).filter p).length + (if p a then 1 else 0)
        = (l.filter p).length + (if p b then 1 else 0)
  | [], w, a, b, h => by simp at h
  | x :: xs, 0, a, b, h => by
    simp at h
    subst h
    simp [List.filter_cons]
    by_cases h1 : p x <;> by_cases h2 : p b <;> simp [h1, h2]
  | x :: xs, w + 1, a, b, h => by
    simp at h
    have ih := filter_length_set p xs w a b h
    simp [List.filter_cons]
    by_cases h1 : p x <;> simp [h1] <;> omega

/-! ### The worker pool: invariant, progress and termination -/

theorem poolInv_init (items : List Item) (visit : Nat → GotoTarget → Option Details)
    (c : Nat) : PoolInv items visit c (poolInit items c) where
  out_len := by simp [poolInit]
  workers_len := by simp [poolInit]
  awaiting_ok := by
    intro my it h
    simp [poolInit, List.mem_replicate] at h
  finished_ok := by
    intro h
    simp [poolInit, List.mem_replicate] at h
  slot_ok := by
    intro i it _ h
    simp [poolInit] at h

theorem poolInv_step {items : List Item} {visit : Nat → GotoTarget → Option Details}
    {c : Nat} {s s' : PoolState} {w : Nat} (hinv : PoolInv items visit c s)
    (hstep : poolStep items visit s w = some s') : PoolInv items visit c s' := by
  unfold poolStep at hstep
  cases hw : s.workers[w]? with
  | none => simp [hw] at hstep
  | some ws =>
    cases ws with
    | finished => simp [hw] at hstep
    | ready =>
      cases hit : items[s.idx]? with
      | none =>
        simp [hw, hit] at hstep
        subst hstep
        have hlen : items.length ≤ s.idx := by
          simpa [List.getElem?_eq_none_iff] using hit
        refine ⟨by simpa using hinv.out_len, by simpa using hinv.workers_len, ?_, ?_, ?_⟩
        · intro my it hmem
          rcases List.mem_or_eq_of_mem_set hmem with h | h
          · have := hinv.awaiting_ok my it h
            exact ⟨by simp; omega, this.2⟩
          · cases h
        · intro _
          simp
          omega
        · intro i it hi hlt
          have hil : i < items.length := by
            by_contra hcon
            have : items[i]? = none := by simp [List.getElem?_eq_none_iff]; omega
            rw [this] at hi
            cases hi
          have hlt2 : i < s.idx := by omega
          rcases hinv.slot_ok i it hi hlt2 with h | h
          · left
            exact mem_set_of_mem_of_ne h hw (by simp)
          · right
            exact h
      | some it0 =>
        simp [hw, hit] at hstep
        subst hstep
        refine ⟨by simpa using hinv.out_len, by simpa using hinv.workers_len, ?_, ?_, ?_⟩
        · intro my it hmem
          rcases List.mem_or_eq_of_mem_set hmem with h | h
          · have := hinv.awaiting_ok my it h
            exact ⟨by simp; omega, this.2⟩
          · cases h
            exact ⟨by simp, hit⟩
        · intro hmem
          rcases List.mem_or_eq_of_mem_set hmem with h | h
          · have := hinv.finished_ok h
            simp
            omega
          · cases h
        · intro i it hi hlt
          simp at hlt
          by_cases hieq : i = s.idx
          · subst hieq
            rw [hit] at hi
            cases hi
            left
            have hwl : w < s.workers.length := by
              by_contra hcon
              have : s.workers[w]? = none := by simp [List.getElem?_eq_none_iff]; omega
              rw [this] at hw
              cases hw
            exact List.mem_iff_getElem.mpr ⟨w, by simpa using hwl, by simp⟩
          · have hlt2 : i < s.idx := by omega
            rcases hinv.slot_ok i it hi hlt2 with h | h
            · left
              exact mem_set_of_mem_of_ne h hw (by simp)
            · right
              exact h
    | awaiting my it0 =>
      simp [hw] at hstep
      subst hstep
      have hmem0 : WorkerState.awaiting my it0 ∈ s.workers := List.getElem?_mem hw
      have h0 := hinv.awaiting_ok my it0 hmem0
      refine ⟨by simpa using hinv.out_len, by simpa using hinv.workers_len, ?_, ?_, ?_⟩
      · intro my' it hmem
        rcases List.mem_or_eq_of_mem_set hmem with h | h
        · exact hinv.awaiting_ok my' it h
        · cases h
      · intro hmem
        rcases List.mem_or_eq_of_mem_set hmem with h | h
        · exact hinv.finished_ok h
        · cases h
      · intro i it hi hlt
        simp at hlt
        by_cases hieq : i = my
        · subst hieq
          right
          have hit : it = it0 := by
            have := h0.2
            rw [hi] at this
            exact Option.some.inj this
          subst hit
          have hil : i < s.out.length := by
            rw [hinv.out_len]
            by_contra hcon
            have : items[i]? = none := by simp [List.getElem?_eq_none_iff]; omega
            rw [this] at hi
            cases hi
          simp [List.getElem?_set, hil, rowOfItem]
        · rcases hinv.slot_ok i it hi hlt with h | h
          · left
            refine mem_set_of_mem_of_ne h hw ?_
            intro hcon
            cases hcon
            exact hieq rfl
          · right
            simp only []
            rw [List.getElem?_set_ne (Ne.symm hieq)]
            exact h

theorem poolInv_exec {items : List Item} {visit : Nat → GotoTarget → Option Details}
    {c : Nat} : ∀ (sched : List Nat) {s s' : PoolState}, PoolInv items visit c s →
      poolExec items visit s sched = some s' → PoolInv items visit c s'
  | [], s, s', hinv, h => by
    simp [poolExec] at h
    subst h
    exact hinv
  | w :: ws, s, s', hinv, h => by
    unfold poolExec at h
    cases hst : poolStep items visit s w with
    | none => simp [hst] at h
    | some s1 =>
      simp [hst] at h
      exact poolInv_exec ws (poolInv_step hinv hst) h

theorem poolMeasure_step {items : List Item} {visit : Nat → GotoTarget → Option Details}
    {s s' : PoolState} {w : Nat} (hstep : poolStep items visit s w = some s') :
    poolMeasure items.length s' + 1 = poolMeasure items.length s := by
  unfold poolStep at hstep
  cases hw : s.workers[w]? with
  | none => simp [hw] at hstep
  | some ws =>
    have hA := fun b => filter_length_set
      (fun w => match w with | WorkerState.awaiting _ _ => true | _ => false) s.workers w ws b hw
    have hL := fun b => filter_length_set (fun w => w != WorkerState.finished) s.workers w ws b hw
    cases ws with
    | finished => simp [hw] at hstep
    | ready =>
      cases hit : items[s.idx]? with
      | none =>
        simp [hw, hit] at hstep
        subst hstep
        have hlen : items.length ≤ s.idx := by
          simpa [List.getElem?_eq_none_iff] using hit
        have h1 := hA WorkerState.finished
        have h2 := hL WorkerState.finished
        simp at h1 h2
        simp only [poolMeasure, awaitingCount, liveCount]
        omega
      | some it0 =>
        simp [hw, hit] at hstep
        subst hstep
        have hlen : s.idx < items.length := by
          by_contra hcon
          have : items[s.idx]? = none := by simp [List.getElem?_eq_none_iff]; omega
          rw [this] at hit
          cases hit
        have h1 := hA (WorkerState.awaiting s.idx it0)
        have h2 := hL (WorkerState.awaiting s.idx it0)
        simp at h1 h2
        simp only [poolMeasure, awaitingCount, liveCount]
        omega
    | awaiting my it0 =>
      simp [hw] at hstep
      subst hstep
      have h1 := hA WorkerState.ready
      have h2 := hL WorkerState.ready
      simp at h1 h2
      simp only [poolMeasure, awaitingCount, liveCount]
      omega

theorem poolMeasure_exec {items : List Item} {visit : Nat → GotoTarget → Option Details} :
    ∀ (sched : List Nat) {s s' : PoolState}, poolExec items visit s sched = some s' →
      poolMeasure items.length s' + sched.length = poolMeasure items.length s
  | [], s, s', h => by
    simp [poolExec] at h
    subst h
    simp
  | w :: ws, s, s', h => by
    unfold poolExec at h
    cases hst : poolStep items visit s w with
    | none => simp [hst] at h
    | some s1 =>
      simp [hst] at h
      have h1 := poolMeasure_step hst
      have h2 := poolMeasure_exec ws h
      simp only [List.length_cons]
      omega

theorem poolMeasure_init (items : List Item) (c : Nat) :
    poolMeasure items.length (poolInit items c) = 2 * items.length + min c items.length := by
  simp [poolMeasure, poolInit, awaitingCount, liveCount, List.filter_replicate]

/-- A state in which some worker is still in its loop has an enabled step. -/
theorem pool_progress (items : List Item) (visit : Nat → GotoTarget → Option Details)
    (s : PoolState) (h : allFinished s = false) :
    ∃ w s', poolStep items visit s w = some s' := by
  have : ∃ x ∈ s.workers, x ≠ WorkerState.finished := by
    by_contra hcon
    push_neg at hcon
    have : allFinished s = true := by
      simp only [allFinished, List.all_eq_true]
      intro x hx
      simp [hcon x hx]
    rw [this] at h
    cases h
  obtain ⟨x, hx, hne⟩ := this
  obtain ⟨w, hw, rfl⟩ := List.getElem_of_mem hx
  have hw2 : s.workers[w]? = some s.workers[w] := List.getElem?_eq_getElem hw
  refine ⟨w, ?_⟩
  unfold poolStep
  rw [hw2]
  cases hws : s.workers[w] with
  | finished => exact absurd hws hne
  | ready =>
    cases items[s.idx]? <;> simp
  | awaiting my it => simp

/-- Every state can be run to completion. -/
theorem pool_completes (items : List Item) (visit : Nat → GotoTarget → Option Details) :
    ∀ (k : Nat) (s : PoolState), poolMeasure items.length s ≤ k →
      ∃ sched s', poolExec items visit s sched = some s' ∧ allFinished s' = true
  | 0, s, hk => by
    cases hf : allFinished s with
    | true => exact ⟨[], s, rfl, hf⟩
    | false =>
      obtain ⟨w, s1, hst⟩ := pool_progress items visit s hf
      have := poolMeasure_step hst
      omega
  | k + 1, s, hk => by
    cases hf : allFinished s with
    | true => exact ⟨[], s, rfl, hf⟩
    | false =>
      obtain ⟨w, s1, hst⟩ := pool_progress items visit s hf
      have hm := poolMeasure_step hst
      obtain ⟨sched, s2, he, hfin⟩ := pool_completes items visit k s1 (by omega)
      refine ⟨w :: sched, s2, ?_, hfin⟩
      simp [poolExec, hst, he]

/-- In a state satisfying the invariant in which every worker has finished, every
slot holds the row of its item. -/
theorem pool_final_slots {items : List Item} {visit : Nat → GotoTarget → Option Details}
    {c : Nat} (hc : 1 ≤ c) {s : PoolState} (hinv : PoolInv items visit c s)
    (hfin : allFinished s = true) (i : Nat) (it : Item) (hi : items[i]? = some it) :
    s.out[i]? = some (some (rowOfItem visit i it)) := by
  have hil : i < items.length := by
    by_contra hcon
    have : items[i]? = none := by simp [List.getElem?_eq_none_iff]; omega
    rw [this] at hi
    cases hi
  have hall : ∀ x ∈ s.workers, x = WorkerState.finished := by
    intro x hx
    have := (List.all_eq_true.mp hfin) x hx
    simpa using this
  have hpos : 0 < s.workers.length := by
    rw [hinv.workers_len]
    omega
  have hmem : WorkerState.finished ∈ s.workers := by
    have h0 : s.workers[0] ∈ s.workers := List.getElem_mem hpos
    rw [hall _ h0] at h0
    exact h0
  have hidx := hinv.finished_ok hmem
  rcases hinv.slot_ok i it hi (by omega) with h | h
  · have := hall _ h
    cases this
  · exact h

/-! ### Claims about the worker pool -/

theorem runPool_some {items : List Item} {c : Nat}
    {visit : Nat → GotoTarget → Option Details} {sched : List Nat}
    {out : List (Option OutputRow)} (h : runPool items c visit sched = some out) :
    ∃ s, poolExec items visit (poolInit items c) sched = some s ∧ allFinished s = true ∧
      s.out = out := by
  unfold runPool at h
  cases hex : poolExec items visit (poolInit items c) sched with
  | none => simp [hex] at h
  | some s =>
    simp only [hex] at h
    split_ifs at h with hfin
    exact ⟨s, rfl, hfin, Option.some.inj h⟩

theorem runPool_returns (items : List Item) (c : Nat)
    (visit : Nat → GotoTarget → Option Details) :
    ∃ sched out, runPool items c visit sched = some out := by
  obtain ⟨sched, s, hex, hfin⟩ := pool_completes items visit _ (poolInit items c) (le_refl _)
  exact ⟨sched, s.out, by simp [runPool, hex, hfin]⟩

/-- C1: for every item list, every concurrency `c ≥ 1` and every schedule of the claim
and completion steps of the `min(c, n)` workers, the run is bounded in length and can
always be continued until all workers have finished, so `runPool` returns; the array it
returns has length `n` and its slot `i` holds the row obtained from `items[i]` (its href
and its seed); for `n = 0` it is empty. -/
theorem runPool_ordered (items : List Item) (c : Nat) (hc : 1 ≤ c)
    (visit : Nat → GotoTarget → Option Details) :
    (poolInit items c).workers.length = min c items.length ∧
    (∃ sched out, runPool items c visit sched = some out) ∧
    (∀ sched s, poolExec items visit (poolInit items c) sched = some s →
      sched.length ≤ 2 * items.length + min c items.length ∧
      (allFinished s = false → ∃ w s', poolStep items visit s w = some s')) ∧
    (∀ sched out, runPool items c visit sched = some out →
      out.length = items.length ∧
      (∀ i it, items[i]? = some it →
        out[i]? = some (some (processOneWithPage (visit i) (gotoTarget it) (seedOf it)))) ∧
      (items = [] → out = [])) := by
  refine ⟨by simp [poolInit], runPool_returns items c visit, ?_, ?_⟩
  · intro sched s hex
    have hm := poolMeasure_exec sched hex
    rw [poolMeasure_init] at hm
    exact ⟨by omega, pool_progress items visit s⟩
  · intro sched out hrun
    obtain ⟨s, hex, hfin, rfl⟩ := runPool_some hrun
    have hinv := poolInv_exec sched (poolInv_init items visit c) hex
    refine ⟨hinv.out_len, ?_, ?_⟩
    · intro i it hi
      exact pool_final_slots hc hinv hfin i it hi
    · intro hnil
      have := hinv.out_len
      rw [hnil] at this
      exact List.length_eq_zero.mp this

/-- Worked instance: three items, one of them without href, and two workers. -/
theorem runPool_ordered_witness :
    1 ≤ 2 ∧
    ∃ sched out, runPool [⟨"https://mitadmissions.org/blogs/entry/a/", none⟩,
        ⟨"https://mitadmissions.org/blogs/entry/b/", none⟩, ⟨"", none⟩] 2 (fun _ _ => none)
        sched = some out :=
  ⟨by decide, (runPool_ordered _ 2 (by decide) _).2.1⟩

theorem degradedRow_fields (it : Item) :
    degradedRow (seedOf it) =
      { title := (it.seed.bind (fun sd => sd.title)).getD ""
        author := (it.seed.bind (fun sd => sd.author)).getD ""
        time := (it.seed.bind (fun sd => sd.time)).getD ""
        commentCount := 0
        articleContent := ""
        imagesInArticle := ""
        imageCount := 0 } := by
  have hor : ∀ o : Option String, optOr o "" = o.getD "" := by
    intro o
    cases o with
    | none => rfl
    | some v =>
      simp only [optOr, strOr, Option.getD_some]
      split_ifs with h
      · exact h.symm
      · rfl
  cases hs : it.seed with
  | none => simp [degradedRow, seedOf, hs, Seed.empty, optOr]
  | some sd => simp [degradedRow, seedOf, hs, hor]

/-- C2: when the visit of item `i` fails (navigation or extraction throws inside
`processOneWithPage`), `runPool` still returns, slot `i` of the returned array is
exactly the row built from the seed of the item, `it.seed` (title, author and time of
the seed where present, the empty string where the seed or the field is missing), with
`commentCount` 0, empty content, empty image list and `imageCount` 0, and every other
slot equals the slot of any run in which the visit of that other item has the same
outcome (in particular of the run where nothing fails). -/
theorem runPool_failure_isolated (items : List Item) (c : Nat) (hc : 1 ≤ c)
    (visit : Nat → GotoTarget → Option Details) (i : Nat) (it : Item)
    (hi : items[i]? = some it) (hfail : visit i (gotoTarget it) = none) :
    (∃ sched out, runPool items c visit sched = some out) ∧
    (∀ sched out, runPool items c visit sched = some out →
      out.length = items.length ∧
      out[i]? = some (some
        { title := (it.seed.bind (fun sd => sd.title)).getD ""
          author := (it.seed.bind (fun sd => sd.author)).getD ""
          time := (it.seed.bind (fun sd => sd.time)).getD ""
          commentCount := 0
          articleContent := ""
          imagesInArticle := ""
          imageCount := 0 }) ∧
      ∀ (visit0 : Nat → GotoTarget → Option Details) (sched0 : List Nat)
        (out0 : List (Option OutputRow)),
        runPool items c visit0 sched0 = some out0 →
        ∀ j, j ≠ i →
          (∀ itj, items[j]? = some itj → visit0 j (gotoTarget itj) = visit j (gotoTarget itj)) →
          out0[j]? = out[j]?) := by
  refine ⟨runPool_returns items c visit, ?_⟩
  intro sched out hrun
  obtain ⟨s, hex, hfin, rfl⟩ := runPool_some hrun
  have hinv := poolInv_exec sched (poolInv_init items visit c) hex
  refine ⟨hinv.out_len, ?_, ?_⟩
  · have := pool_final_slots hc hinv hfin i it hi
    rw [this, ← degradedRow_fields it]
    simp [rowOfItem, processOneWithPage, hfail]
  · intro visit0 sched0 out0 hrun0 j _ hagree
    obtain ⟨s0, hex0, hfin0, rfl⟩ := runPool_some hrun0
    have hinv0 := poolInv_exec sched0 (poolInv_init items visit0 c) hex0
    cases hj : items[j]? with
    | none =>
      have hlen : items.length ≤ j := by simpa [List.getElem?_eq_none_iff] using hj
      have h1 : s.out[j]? = none := by
        simp [List.getElem?_eq_none_iff, hinv.out_len, hlen]
      have h2 : s0.out[j]? = none := by
        simp [List.getElem?_eq_none_iff, hinv0.out_len, hlen]
      rw [h1, h2]
    | some itj =>
      rw [pool_final_slots hc hinv hfin j itj hj, pool_final_slots hc hinv0 hfin0 j itj hj]
      simp [rowOfItem, processOneWithPage, hagree itj hj]

/-- Worked instance: two items, two workers, the visit of the second item fails; its row
carries the title and the time of its seed. -/
theorem runPool_failure_isolated_witness :
    (1 ≤ 2 ∧ [Item.mk "u0" none, Item.mk "u1" (some ⟨some "T", none, some "2024"⟩)][1]?
        = some (Item.mk "u1" (some ⟨some "T", none, some "2024"⟩)) ∧
      (fun (_ : Nat) (_ : GotoTarget) => (none : Option Details)) 1
        (gotoTarget (Item.mk "u1" (some ⟨some "T", none, some "2024"⟩))) = none) ∧
    runPool [Item.mk "u0" none, Item.mk "u1" (some ⟨some "T", none, some "2024"⟩)] 2
        (fun _ _ => none) [0, 1, 1, 0, 0, 1]
      = some [some ⟨"", "", 0, "", "", "", 0⟩, some ⟨"T", "", 0, "2024", "", "", 0⟩] ∧
    ∃ sched out, runPool [Item.mk "u0" none, Item.mk "u1" (some ⟨some "T", none, some "2024"⟩)]
        2 (fun _ _ => none) sched = some out ∧
      out[1]? = some (some ⟨"T", "", 0, "2024", "", "", 0⟩) :=
  ⟨⟨by decide, rfl, rfl⟩, by decide,
    match runPool_failure_isolated
      [Item.mk "u0" none, Item.mk "u1" (some ⟨some "T", none, some "2024"⟩)]
      2 (by decide) (fun _ _ => none) 1 _ rfl rfl with
    | ⟨⟨sched, out, hrun⟩, hall⟩ => ⟨sched, out, hrun, (hall sched out hrun).2.1⟩⟩

/-! ### Normalised text -/

theorem collapseWsAux_mem (b : Bool) (l : List Char) :
    ∀ c ∈ collapseWsAux b l, isJsSpace c = true → c = ' ' := by
  induction l generalizing b with
  | nil => simp [collapseWsAux]
  | cons x xs ih =>
    intro c hc hs
    unfold collapseWsAux at hc
    by_cases hx : isJsSpace x = true
    · cases b with
      | true =>
        simp [hx] at hc
        exact ih true c hc hs
      | false =>
        simp [hx] at hc
        rcases hc with h | h
        · exact h
        · exact ih true c h hs
    · simp [hx] at hc
      rcases hc with h | h
      · subst h
        exact absurd hs hx
      · exact ih false c h hs

theorem collapseWsAux_chain (b : Bool) (l : List Char) :
    List.Chain' (fun a b => ¬ (isJsSpace a = true ∧ isJsSpace b = true)) (collapseWsAux b l) ∧
    (b = true → ∀ y ∈ (collapseWsAux b l).head?, isJsSpace y ≠ true) := by
  induction l generalizing b with
  | nil => simp [collapseWsAux]
  | cons x xs ih =>
    unfold collapseWsAux
    by_cases hx : isJsSpace x = true
    · cases b with
      | true =>
        simp only [hx, if_true]
        exact ⟨(ih true).1, fun _ => (ih true).2 rfl⟩
      | false =>
        simp only [hx, if_true, Bool.false_eq_true, if_false]
        refine ⟨?_, by simp⟩
        rw [List.chain'_cons']
        refine ⟨?_, (ih true).1⟩
        intro y hy
        have := (ih true).2 rfl y hy
        simp [this]
    · simp only [hx, if_false, Bool.false_eq_true]
      refine ⟨?_, ?_⟩
      · rw [List.chain'_cons']
        refine ⟨?_, (ih false).1⟩
        intro y _
        simp [hx]
      · intro _ y hy
        simp at hy
        subst hy
        exact hx

theorem singleSpaced_collapse (l : List Char) : SingleSpaced (collapseWsAux false l) :=
  ⟨collapseWsAux_mem false l, (collapseWsAux_chain false l).1⟩

theorem SingleSpaced.sub {l m : List Char} (h : SingleSpaced l) (hm : m <:+: l) :
    SingleSpaced m :=
  ⟨fun c hc => h.1 c (hm.subset hc), List.Chain'.infix h.2 hm⟩

theorem trimChars_sub (l : List Char) : trimChars l <:+: l := by
  unfold trimChars
  have h1 : ((l.dropWhile isJsSpace).reverse.dropWhile isJsSpace).reverse
      <+: l.dropWhile isJsSpace := by
    have := List.rdropWhile_prefix isJsSpace (l.dropWhile isJsSpace)
    simpa [List.rdropWhile] using this
  exact h1.isInfix.trans (List.dropWhile_suffix isJsSpace).isInfix

theorem singleSpaced_normChars (l : List Char) : SingleSpaced (normChars l) :=
  (singleSpaced_collapse l).sub (trimChars_sub _)

/-- A trimmed string does not start with white space. -/
theorem trimChars_head (l : List Char) : ∀ y ∈ (trimChars l).head?, isJsSpace y ≠ true := by
  intro y hy
  unfold trimChars at hy
  have hpre : ((l.dropWhile isJsSpace).reverse.dropWhile isJsSpace).reverse
      <+: l.dropWhile isJsSpace := by
    have := List.rdropWhile_prefix isJsSpace (l.dropWhile isJsSpace)
    simpa [List.rdropWhile] using this
  obtain ⟨t, ht⟩ := hpre
  cases hr : ((l.dropWhile isJsSpace).reverse.dropWhile isJsSpace).reverse with
  | nil => simp [hr] at hy
  | cons a as =>
    rw [hr] at hy ht
    simp at hy
    subst hy
    have hh : (l.dropWhile isJsSpace).head? = some a := by rw [← ht]; rfl
    have := List.head?_dropWhile_not isJsSpace l
    rw [hh] at this
    simpa using this

/-- A trimmed string does not end with white space. -/
theorem trimChars_getLast (l : List Char) :
    ∀ y ∈ (trimChars l).getLast?, isJsSpace y ≠ true := by
  intro y hy
  unfold trimChars at hy
  rw [List.getLast?_reverse] at hy
  have := List.head?_dropWhile_not isJsSpace (l.dropWhile isJsSpace).reverse
  rw [Option.mem_def] at hy
  rw [hy] at this
  simpa using this

/-! ### Comment labels -/

theorem isDigit_iff (c : Char) : c.isDigit = true ↔ 48 ≤ c.toNat ∧ c.toNat ≤ 57 := by
  unfold Char.isDigit Char.toNat
  simp only [Bool.and_eq_true, decide_eq_true_eq, ge_iff_le]
  exact Iff.rfl

theorem toLower_of_not_upper {c : Char} (h : ¬ (65 ≤ c.toNat ∧ c.toNat ≤ 90)) :
    c.toLower = c := by
  unfold Char.toLower
  simp only [ge_iff_le]
  rw [if_neg h]

theorem isJsSpace_toLower {c : Char} (h : isJsSpace c = true) : c.toLower = c := by
  apply toLower_of_not_upper
  unfold isJsSpace at h
  simp at h
  omega

theorem isDigit_toLower {c : Char} (h : c.isDigit = true) : c.toLower = c := by
  apply toLower_of_not_upper
  rw [isDigit_iff] at h
  omega

theorem takeWhile_append_stop {α : Type} (p : α → Bool) (ds : List α) (x : α) (r : List α)
    (hds : ∀ d ∈ ds, p d = true) (hx : p x = false) :
    (ds ++ x :: r).takeWhile p = ds ∧ (ds ++ x :: r).dropWhile p = x :: r := by
  induction ds with
  | nil => simp [List.takeWhile, List.dropWhile, hx]
  | cons d ds ih =>
    have hd : p d = true := hds d (by simp)
    have := ih (fun e he => hds e (by simp [he]))
    simp [List.takeWhile, List.dropWhile, hd, this]

theorem word_head_not_space {word : List Char}
    (hw : foldAscii word = "comment".data ∨ foldAscii word = "comments".data) :
    ∃ c w, word = c :: w ∧ isJsSpace c = false ∧ c.isDigit = false := by
  cases word with
  | nil => rcases hw with h | h <;> cases h
  | cons c w =>
    have hc : c.toLower = 'c' := by
      rcases hw with h | h <;> · simp [foldAscii] at h; exact h.1
    refine ⟨c, w, rfl, ?_, ?_⟩
    · cases hs : isJsSpace c with
      | false => rfl
      | true =>
        rw [isJsSpace_toLower hs] at hc
        subst hc
        exact absurd hs (by decide)
    · cases hd : c.isDigit with
      | false => rfl
      | true =>
        rw [isDigit_toLower hd] at hc
        subst hc
        exact absurd hd (by decide)

/-- On normalised text the regular expression `/^(\d+)\s+Comments?$/i` matches with
captured value `N` exactly when the text reads `N Comment` or `N Comments`. -/
theorem matchLabel_iff (t : String) (N : Nat) :
    labelInteger t = some N ↔ IsLabel t N := by
  have hss : SingleSpaced (norm t).data := singleSpaced_normChars t.data
  unfold IsLabel labelInteger
  generalize (norm t).data = l at hss ⊢
  constructor
  · intro h0
    obtain ⟨ds0, h, hds0⟩ := Option.map_eq_some'.mp h0
    unfold matchLabel at h
    simp only at h
    split_ifs at h with h1 h2 h3
    have hl : l = l.takeWhile Char.isDigit ++ l.dropWhile Char.isDigit :=
      (List.takeWhile_append_dropWhile _ _).symm
    cases hrest : l.dropWhile Char.isDigit with
    | nil => simp [hrest] at h2
    | cons w0 r =>
      rw [hrest] at h2 h3 hl
      have hw0 : isJsSpace w0 = true := by
        by_contra hcon
        simp [List.takeWhile, hcon] at h2
      have hinf : (w0 :: r) <:+: l := by
        rw [hl]
        exact (List.suffix_append _ _).isInfix
      have hs2 := hss.sub hinf
      have hw0eq : w0 = ' ' := hs2.1 w0 (by simp) hw0
      have hr : r.dropWhile isJsSpace = r := by
        cases r with
        | nil => rfl
        | cons r0 rs =>
          have := hs2.2
          rw [List.chain'_cons] at this
          have hr0 : isJsSpace r0 = false := by
            have := this.1
            simp [hw0] at this
            exact this
          simp [List.dropWhile, hr0]
      refine ⟨l.takeWhile Char.isDigit, r, h1, ?_, ?_, ?_, ?_⟩
      · intro d hd
        exact (List.mem_takeWhile_imp hd)
      · simpa [List.dropWhile, hw0, hr] using h3
      · rw [← hw0eq]
        exact hl
      · rw [Option.some.inj h]
        exact hds0.symm
  · rintro ⟨ds, word, hne, hds, hw, hl, hN⟩
    obtain ⟨c, w, hcw, hcs, hcd⟩ := word_head_not_space hw
    have h1 := takeWhile_append_stop Char.isDigit ds ' ' word hds (by decide)
    rw [← hl] at h1
    unfold matchLabel
    simp only [h1.1, h1.2, hne, if_false]
    have hsp : isJsSpace ' ' = true := by decide
    have h2 : (' ' :: word).takeWhile isJsSpace = [' '] := by
      rw [hcw]
      simp [List.takeWhile, hcs, hsp]
    have h3 : (' ' :: word).dropWhile isJsSpace = word := by
      rw [hcw]
      simp [List.dropWhile, hcs, hsp]
    rw [h2, h3]
    simp [hw, hN]

theorem labelFold_ge_init (f : String → Option Nat) (ts : List String) (b : Nat) :
    b ≤ ts.foldl (fun best t => match f t with | some n => max best n | none => best) b := by
  induction ts generalizing b with
  | nil => simp
  | cons t ts ih =>
    simp only [List.foldl_cons]
    cases f t with
    | none => exact ih b
    | some n => exact le_trans (le_max_left b n) (ih _)

theorem labelFold_ge_mem (f : String → Option Nat) (ts : List String) (b : Nat)
    (t : String) (ht : t ∈ ts) (n : Nat) (hn : f t = some n) :
    n ≤ ts.foldl (fun best t => match f t with | some n => max best n | none => best) b := by
  induction ts generalizing b with
  | nil => cases ht
  | cons x xs ih =>
    simp only [List.foldl_cons]
    rcases List.mem_cons.mp ht with h | h
    · subst h
      rw [hn]
      exact le_trans (le_max_right b n) (labelFold_ge_init f xs _)
    · exact ih _ h

theorem labelFold_attained (f : String → Option Nat) (ts : List String) (b : Nat) :
    ts.foldl (fun best t => match f t with | some n => max best n | none => best) b = b ∨
    ∃ t ∈ ts,
      f t = some (ts.foldl (fun best t => match f t with | some n => max best n | none => best) b) := by
  induction ts generalizing b with
  | nil => simp
  | cons x xs ih =>
    simp only [List.foldl_cons]
    cases hx : f x with
    | none =>
      rcases ih b with h | ⟨t, ht, h⟩
      · exact Or.inl h
      · exact Or.inr ⟨t, List.mem_cons_of_mem _ ht, h⟩
    | some n =>
      rcases ih (max b n) with h | ⟨t, ht, h⟩
      · simp only [] at h ⊢
        rw [h]
        rcases le_total b n with hbn | hbn
        · right
          exact ⟨x, List.mem_cons_self _ _, by rw [hx, max_eq_right hbn]⟩
        · left
          exact max_eq_left hbn
      · exact Or.inr ⟨t, List.mem_cons_of_mem _ ht, h⟩

/-- The largest integer written in a label is the maximum of the labels. -/
theorem maxLabelInteger_isMax (texts : List String) :
    IsMaxLabel texts (maxLabelInteger texts) := by
  constructor
  · intro t ht N hN
    exact labelFold_ge_mem labelInteger texts 0 t ht N ((matchLabel_iff t N).mpr hN)
  · rcases labelFold_attained labelInteger texts 0 with h | ⟨t, ht, h⟩
    · by_cases hex : ∃ t ∈ texts, ∃ N, IsLabel t N
      · obtain ⟨t, ht, N, hN⟩ := hex
        have hle := labelFold_ge_mem labelInteger texts 0 t ht N ((matchLabel_iff t N).mpr hN)
        rw [h] at hle
        have hN0 : N = 0 := by omega
        subst hN0
        left
        refine ⟨t, ht, ?_⟩
        have : maxLabelInteger texts = 0 := h
        rw [this]
        exact hN
      · right
        refine ⟨h, ?_⟩
        intro t ht N hN
        exact hex ⟨t, ht, N, hN⟩
    · left
      exact ⟨t, ht, (matchLabel_iff t _).mp h⟩

theorem isMaxLabel_unique {texts : List String} {a b : Nat}
    (ha : IsMaxLabel texts a) (hb : IsMaxLabel texts b) : a = b := by
  have h1 : a ≤ b := by
    rcases ha.2 with ⟨t, ht, h⟩ | ⟨h, _⟩
    · exact hb.1 t ht a h
    · omega
  have h2 : b ≤ a := by
    rcases hb.2 with ⟨t, ht, h⟩ | ⟨h, _⟩
    · exact ha.1 t ht b h
    · omega
  omega

/-- Below `2 ^ 53` the Number value of an integer is the integer itself. -/
theorem toDouble_exact {n : Nat} (h : n < 2 ^ 53) : toDouble n = JsNumber.finite n := by
  unfold toDouble
  rw [if_pos (by simpa using h)]

theorem extractLabelFold_exact (texts : List String)
    (hb : ∀ t ∈ texts, ∀ N, IsLabel t N → N < 2 ^ 53) (b : Nat) :
    texts.foldl
        (fun best t =>
          match matchLabel (norm t).data with
          | some ds => jsMax best (parseIntDigits ds)
          | none => best)
        (JsNumber.finite b)
      = JsNumber.finite ((texts.foldl
          (fun best t => match labelInteger t with | some n => max best n | none => best)
          b : Nat) : Int) := by
  induction texts generalizing b with
  | nil => rfl
  | cons t ts ih =>
    have hts : ∀ t ∈ ts, ∀ N, IsLabel t N → N < 2 ^ 53 :=
      fun x hx => hb x (List.mem_cons_of_mem _ hx)
    simp only [List.foldl_cons]
    cases hm : matchLabel (norm t).data with
    | none =>
      have hl : labelInteger t = none := by simp [labelInteger, hm]
      simp only [hl]
      exact ih hts b
    | some ds =>
      have hl : labelInteger t = some (digitsValue ds) := by simp [labelInteger, hm]
      have hlt : digitsValue ds < 2 ^ 53 :=
        hb t (List.mem_cons_self _ _) _ ((matchLabel_iff t _).mp hl)
      simp only [hl, parseIntDigits, toDouble_exact hlt, jsMax]
      rw [← Nat.cast_max]
      exact ih hts _

/-- When every label in scope writes an integer below `2 ^ 53`, the helper
`extractLabelCount` returns the maximum of the labels in its scope. -/
theorem extractLabelCount_exact (texts : List String)
    (hb : ∀ t ∈ texts, ∀ N, IsLabel t N → N < 2 ^ 53) :
    extractLabelCount texts = JsNumber.finite (maxLabelInteger texts) :=
  extractLabelFold_exact texts hb 0

/-! ### Claim about the host-document comment count -/

/-- C3 (as stated, refuted): on a page whose article body contains an element reading
`5 Comments` and which has an element reading `2 Comments` after the body, tiers 1-3
resolve 2, which is not the maximum over the scanned elements of the page; and on a
page whose only label reads `9007199254740993 Comments` they resolve
9007199254740992, the Number value of that integer. -/
theorem hostCommentCount_not_page_max :
    hostCommentCount ⟨true, [⟨"5 Comments", false⟩, ⟨"2 Comments", true⟩], []⟩
      = JsNumber.finite 2 ∧
    ¬ IsMaxLabel ["5 Comments", "2 Comments"] 2 ∧
    hostCommentCount ⟨true, [⟨"9007199254740993 Comments", true⟩], []⟩
      = JsNumber.finite 9007199254740992 ∧
    ¬ IsMaxLabel ["9007199254740993 Comments"] 9007199254740992 := by
  have h5 : IsLabel "5 Comments" 5 :=
    ⟨['5'], "Comments".data, by simp, by decide, by decide, by decide, by decide⟩
  have hbig : IsLabel "9007199254740993 Comments" 9007199254740993 :=
    ⟨"9007199254740993".data, "Comments".data, by simp, by decide, by decide, by decide,
      by decide⟩
  refine ⟨by decide, ?_, by decide, ?_⟩
  · intro h
    have := h.1 "5 Comments" (by simp) 5 h5
    omega
  · intro h
    have := h.1 "9007199254740993 Comments" (by simp) _ hbig
    omega

/-- C3 (amended): when every label of the page writes an integer below `2 ^ 53`, tiers
1-3 resolve a finite count `m`: if the page has an article body and some element after
it carries a label with a positive integer, `m` is the maximum label among the elements
after the body; otherwise `m` is the maximum label among all scanned elements of the
page, and 0 when none matches.  (The legacy headers of tier 3 are `h2`/`h3` elements,
hence among the scanned elements.) -/
theorem hostCommentCount_tiers (doc : HostDocument)
    (hsub : ∀ t ∈ doc.commentHeaders, ∃ e ∈ doc.candidates, e.textContent = t)
    (hexact : ∀ e ∈ doc.candidates, ∀ N, IsLabel e.textContent N → N < 2 ^ 53) :
    ∃ m : Nat, hostCommentCount doc = JsNumber.finite m ∧
    ((doc.hasArticle = true ∧
        ∃ e ∈ doc.candidates, e.followsArticle = true ∧ ∃ N, 0 < N ∧ IsLabel e.textContent N) →
      IsMaxLabel ((doc.candidates.filter (fun el => el.followsArticle)).map
        (fun el => el.textContent)) m) ∧
    (¬ (doc.hasArticle = true ∧
        ∃ e ∈ doc.candidates, e.followsArticle = true ∧ ∃ N, 0 < N ∧ IsLabel e.textContent N) →
      IsMaxLabel (doc.candidates.map (fun el => el.textContent)) m) := by
  have hF := maxLabelInteger_isMax ((doc.candidates.filter (fun el => el.followsArticle)).map
    (fun el => el.textContent))
  have hP := maxLabelInteger_isMax (doc.candidates.map (fun el => el.textContent))
  have hH := maxLabelInteger_isMax doc.commentHeaders
  have eF := extractLabelCount_exact ((doc.candidates.filter (fun el => el.followsArticle)).map
      (fun el => el.textContent)) (by
    intro t ht N hN
    obtain ⟨e, he, rfl⟩ := List.mem_map.mp ht
    exact hexact e (List.mem_filter.mp he).1 N hN)
  have eP := extractLabelCount_exact (doc.candidates.map (fun el => el.textContent)) (by
    intro t ht N hN
    obtain ⟨e, he, rfl⟩ := List.mem_map.mp ht
    exact hexact e he N hN)
  have eH := extractLabelCount_exact doc.commentHeaders (by
    intro t ht N hN
    obtain ⟨e, he, rfl⟩ := hsub t ht
    exact hexact e he N hN)
  have hH0 : maxLabelInteger (doc.candidates.map (fun el => el.textContent)) = 0 →
      maxLabelInteger doc.commentHeaders = 0 := by
    intro h0
    rcases hH.2 with ⟨t, ht, h⟩ | ⟨h, _⟩
    · obtain ⟨e, he, hte⟩ := hsub t ht
      have := hP.1 t (List.mem_map.mpr ⟨e, he, hte⟩) _ h
      omega
    · exact h
  have hfin : ∀ a : Nat, (JsNumber.finite (a : Int) = JsNumber.finite 0) ↔ a = 0 := by
    intro a
    constructor
    · intro h
      have := JsNumber.finite.inj h
      exact_mod_cast this
    · rintro rfl
      rfl
  by_cases hcond : doc.hasArticle = true ∧
      ∃ e ∈ doc.candidates, e.followsArticle = true ∧ ∃ N, 0 < N ∧ IsLabel e.textContent N
  · refine ⟨maxLabelInteger ((doc.candidates.filter (fun el => el.followsArticle)).map
      (fun el => el.textContent)), ?_, fun _ => hF, fun h => absurd hcond h⟩
    obtain ⟨hart, e, he, hfol, N, hpos, hN⟩ := hcond
    have hmem : e.textContent ∈ (doc.candidates.filter (fun el => el.followsArticle)).map
        (fun el => el.textContent) :=
      List.mem_map.mpr ⟨e, List.mem_filter.mpr ⟨he, hfol⟩, rfl⟩
    have hle := hF.1 _ hmem N hN
    have hne : maxLabelInteger ((doc.candidates.filter (fun el => el.followsArticle)).map
        (fun el => el.textContent)) ≠ 0 := by omega
    unfold hostCommentCount
    simp only [hart, if_true, eF, hfin, hne, if_false]
  · refine ⟨maxLabelInteger (doc.candidates.map (fun el => el.textContent)), ?_,
      fun h => absurd h hcond, fun _ => hP⟩
    have hc1 : (if doc.hasArticle then
        extractLabelCount ((doc.candidates.filter (fun el => el.followsArticle)).map
          (fun el => el.textContent)) else JsNumber.finite 0) = JsNumber.finite 0 := by
      by_cases hart : doc.hasArticle = true
      · simp only [hart, if_true, eF]
        rcases hF.2 with ⟨t, ht, h⟩ | ⟨h, _⟩
        · by_contra hne
          obtain ⟨e, he, rfl⟩ := List.mem_map.mp ht
          have he2 := List.mem_filter.mp he
          have hne0 : maxLabelInteger ((doc.candidates.filter (fun el => el.followsArticle)).map
              (fun el => el.textContent)) ≠ 0 := fun h0 => hne (by rw [h0]; rfl)
          exact hcond ⟨hart, e, he2.1, he2.2, _, Nat.pos_of_ne_zero hne0, h⟩
        · rw [h]
          rfl
      · simp [hart]
    unfold hostCommentCount
    simp only [hc1, if_true, eP, eH, hfin]
    by_cases h0 : maxLabelInteger (doc.candidates.map (fun el => el.textContent)) = 0
    · simp [h0, hH0 h0]
    · simp [h0]

/-- Worked instance: a label inside the body, two labels after it, one legacy header. -/
theorem hostCommentCount_tiers_witness :
    ((∀ t ∈ (HostDocument.mk true [⟨"5 Comments", false⟩, ⟨"2 Comments", true⟩,
        ⟨"7 comment", true⟩] ["2 Comments"]).commentHeaders,
      ∃ e ∈ (HostDocument.mk true [⟨"5 Comments", false⟩, ⟨"2 Comments", true⟩,
        ⟨"7 comment", true⟩] ["2 Comments"]).candidates, e.textContent = t) ∧
      ∀ e ∈ (HostDocument.mk true [⟨"5 Comments", false⟩, ⟨"2 Comments", true⟩,
        ⟨"7 comment", true⟩] ["2 Comments"]).candidates,
        ∀ N, IsLabel e.textContent N → N < 2 ^ 53) ∧
    hostCommentCount ⟨true, [⟨"5 Comments", false⟩, ⟨"2 Comments", true⟩,
        ⟨"7 comment", true⟩], ["2 Comments"]⟩ = JsNumber.finite 7 ∧
    ∃ m : Nat, hostCommentCount ⟨true, [⟨"5 Comments", false⟩, ⟨"2 Comments", true⟩,
        ⟨"7 comment", true⟩], ["2 Comments"]⟩ = JsNumber.finite m ∧
      IsMaxLabel ["2 Comments", "7 comment"] m :=
  have hsub : ∀ t ∈ (HostDocument.mk true [⟨"5 Comments", false⟩, ⟨"2 Comments", true⟩,
        ⟨"7 comment", true⟩] ["2 Comments"]).commentHeaders,
      ∃ e ∈ (HostDocument.mk true [⟨"5 Comments", false⟩, ⟨"2 Comments", true⟩,
        ⟨"7 comment", true⟩] ["2 Comments"]).candidates, e.textContent = t := by
    intro t ht
    simp at ht
    subst ht
    exact ⟨⟨"2 Comments", true⟩, by simp, rfl⟩
  have hexact : ∀ e ∈ (HostDocument.mk true [⟨"5 Comments", false⟩, ⟨"2 Comments", true⟩,
        ⟨"7 comment", true⟩] ["2 Comments"]).candidates,
        ∀ N, IsLabel e.textContent N → N < 2 ^ 53 := by
    intro e he N hN
    have hN' := (matchLabel_iff e.textContent N).mpr hN
    simp only [List.mem_cons, List.mem_singleton, List.not_mem_nil, or_false] at he
    rcases he with rfl | rfl | rfl
    · have : labelInteger "5 Comments" = some 5 := by decide
      rw [this] at hN'
      have := Option.some.inj hN'
      omega
    · have : labelInteger "2 Comments" = some 2 := by decide
      rw [this] at hN'
      have := Option.some.inj hN'
      omega
    · have : labelInteger "7 comment" = some 7 := by decide
      rw [this] at hN'
      have := Option.some.inj hN'
      omega
  ⟨⟨hsub, hexact⟩, by decide,
    match hostCommentCount_tiers _ hsub hexact with
    | ⟨m, hm, h1, _⟩ => ⟨m, hm, h1
        ⟨rfl, ⟨"2 Comments", true⟩, by simp, rfl, 2, by decide,
          ⟨['2'], "Comments".data, by simp, by decide, by decide, by decide, by decide⟩⟩⟩⟩

/-! ### Claim about the `by` rule of the title -/

/-- C4 (the code at the failing inputs): the title `İstanbul by X` (first letter U+0130)
has the lower-case form `i̇stanbul by x`, one code unit longer, so the index 9 of
`" by "` found in the lower-case form is one past its position 8 in the title itself.
Slicing the title at that index leaves nothing after the occurrence, and the author
`Staff` resolved from the selectors is kept instead of `X`; for the title
`İstanbul by Jane Q. Doe` the author becomes `ane Q. Doe`.  The title of the
specification is resolved as stated. -/
theorem byRule_misaligned_on_dotted_capital_I :
    lastIndexOf " by ".data (jsToLowerCase "İstanbul by X".data) = some 9 ∧
    lastIndexOf " by ".data "İstanbul by X".data = some 8 ∧
    resolveTitleAuthor
        { titleElText := some "İstanbul by X", ogTitle := none,
          documentTitle := "", authorElText := some "By Staff", metaAuthor := none }
      = ("İstanbul", "Staff") ∧
    resolveTitleAuthor
        { titleElText := some "İstanbul by Jane Q. Doe", ogTitle := none,
          documentTitle := "", authorElText := some "By Staff", metaAuthor := none }
      = ("İstanbul", "ane Q. Doe") ∧
    resolveTitleAuthor
        { titleElText := some "Reflections on Admissions by Jane Q. Doe", ogTitle := none,
          documentTitle := "", authorElText := some "By Staff", metaAuthor := none }
      = ("Reflections on Admissions", "Jane Q. Doe") := by
  refine ⟨by decide, by decide, by decide, by decide, by decide⟩

/-! ### Newline runs -/

theorem not_space_ne_newline {c : Char} (h : isJsSpace c = false) : c ≠ '\n' := by
  rintro rfl
  exact absurd h (by decide)

theorem runsBelow_mono_bound {b b' : Nat} (hb : b ≤ b') :
    ∀ (l : List Char) (k : Nat), runsBelow b k l = true → runsBelow b' k l = true
  | [], _, _ => rfl
  | c :: cs, k, h => by
    unfold runsBelow at h ⊢
    by_cases hc : c = '\n'
    · simp only [hc, if_true, Bool.and_eq_true, decide_eq_true_eq] at h ⊢
      exact ⟨by omega, runsBelow_mono_bound hb cs _ h.2⟩
    · simp only [hc, if_false] at h ⊢
      exact runsBelow_mono_bound hb cs _ h

theorem runsBelow_head {b : Nat} (k : Nat) {c : Char} (cs : List Char) (hc : c ≠ '\n') :
    runsBelow b k (c :: cs) = runsBelow b 0 cs := by
  simp [runsBelow, hc]

theorem runsBelow_append {b : Nat} (y : List Char) (hy : runsBelow b 0 y = true) :
    ∀ (x : List Char) (k : Nat), x ≠ [] → x.getLast? ≠ some '\n' →
      runsBelow b k x = true → runsBelow b k (x ++ y) = true
  | [], _, hne, _, _ => absurd rfl hne
  | [c], k, _, hlast, _ => by
    have hc : c ≠ '\n' := by
      intro h
      apply hlast
      simp [h]
    simp only [List.singleton_append]
    rw [runsBelow_head k y hc]
    exact hy
  | c :: d :: cs, k, _, hlast, h => by
    have hlast2 : (d :: cs).getLast? ≠ some '\n' := by
      simpa [List.getLast?_cons_cons] using hlast
    simp only [List.cons_append]
    unfold runsBelow at h ⊢
    by_cases hc : c = '\n'
    · simp only [hc, if_true, Bool.and_eq_true, decide_eq_true_eq] at h ⊢
      exact ⟨h.1, runsBelow_append y hy (d :: cs) _ (by simp) hlast2 h.2⟩
    · simp only [hc, if_false] at h ⊢
      exact runsBelow_append y hy (d :: cs) _ (by simp) hlast2 h

theorem runsBelow_two_of_pair (t : List Char) :
    ∀ (s : List Char) (k : Nat), runsBelow 2 k (s ++ '\n' :: '\n' :: t) = false
  | [], k => by simp [runsBelow]
  | c :: cs, k => by
    simp only [List.cons_append]
    unfold runsBelow
    by_cases hc : c = '\n'
    · simp [hc, runsBelow_two_of_pair t cs]
    · simp [hc, runsBelow_two_of_pair t cs]

theorem runsBelow_three_of_triple (t : List Char) :
    ∀ (s : List Char) (k : Nat), runsBelow 3 k (s ++ '\n' :: '\n' :: '\n' :: t) = false
  | [], k => by simp [runsBelow]
  | c :: cs, k => by
    simp only [List.cons_append]
    unfold runsBelow
    by_cases hc : c = '\n'
    · simp [hc, runsBelow_three_of_triple t cs]
    · simp [hc, runsBelow_three_of_triple t cs]

theorem no_pair_of_runsBelow {l : List Char} (h : runsBelow 2 0 l = true) :
    ¬ ['\n', '\n'] <:+: l := by
  rintro ⟨s, t, rfl⟩
  have := runsBelow_two_of_pair t s 0
  simp at h
  simp [h] at this

theorem no_triple_of_runsBelow {l : List Char} (h : runsBelow 3 0 l = true) :
    ¬ ['\n', '\n', '\n'] <:+: l := by
  rintro ⟨s, t, rfl⟩
  have := runsBelow_three_of_triple t s 0
  simp at h
  simp [h] at this

theorem collapseNewlinesAux_runs (l : List Char) :
    ∀ b : Bool, runsBelow 2 (if b then 1 else 0) (collapseNewlinesAux b l) = true := by
  induction l with
  | nil => intro b; simp [collapseNewlinesAux, runsBelow]
  | cons c cs ih =>
    intro b
    unfold collapseNewlinesAux
    by_cases hc : c = '\n'
    · cases b with
      | true =>
        simp only [hc, if_true]
        exact ih true
      | false =>
        simp only [hc, if_true, Bool.false_eq_true, if_false]
        unfold runsBelow
        simp only [if_true, Bool.and_eq_true, decide_eq_true_eq]
        exact ⟨by omega, ih true⟩
    · simp only [hc, if_false]
      rw [runsBelow_head _ _ hc]
      exact ih false

theorem softBreaks_runs (l : List Char) :
    ∀ k : Nat, runsBelow 2 k l = true → runsBelow 2 k (softBreaks l) = true := by
  induction l using softBreaks.induct with
  | case1 => intro k h; simpa [softBreaks] using h
  | case2 a => intro k h; simpa [softBreaks] using h
  | case3 a n => intro k h; simpa [softBreaks] using h
  | case4 a n b rest hm ih =>
    intro k h
    have ha : a ≠ '\n' := not_space_ne_newline hm.1
    have hb : b ≠ '\n' := not_space_ne_newline hm.2.2
    have hn : n = '\n' := hm.2.1
    subst hn
    rw [softBreaks, if_pos hm]
    rw [runsBelow_head k _ ha] at h ⊢
    rw [runsBelow_head 0 _ (by decide : ' ' ≠ '\n'), runsBelow_head 0 _ hb]
    apply ih
    unfold runsBelow at h
    simp only [if_true, Bool.and_eq_true, decide_eq_true_eq] at h
    rw [runsBelow_head _ _ hb] at h
    exact h.2
  | case5 a n b rest hm ih =>
    intro k h
    rw [softBreaks, if_neg hm]
    unfold runsBelow at h ⊢
    by_cases hc : a = '\n'
    · simp only [hc, if_true, Bool.and_eq_true, decide_eq_true_eq] at h ⊢
      exact ⟨h.1, ih _ h.2⟩
    · simp only [hc, if_false] at h ⊢
      exact ih _ h

/-- The per-block normalisation leaves no two consecutive newlines. -/
theorem normalizeBlock_runs (t : String) : runsBelow 2 0 (normalizeBlock t) = true :=
  softBreaks_runs _ 0 (collapseNewlinesAux_runs _ false)

theorem blockPart_runs (b : Block) : runsBelow 2 0 (blockPart b) = true := by
  unfold blockPart
  simp only
  split_ifs with h1 h2
  · exact normalizeBlock_runs _
  · rw [runsBelow_head 0 _ (by decide : '-' ≠ '\n'), runsBelow_head 0 _ (by decide : ' ' ≠ '\n')]
    exact normalizeBlock_runs _
  · exact normalizeBlock_runs _

theorem intercalate_cons_cons {α : Type} (sep p q : List α) (rest : List (List α)) :
    List.intercalate sep (p :: q :: rest) = p ++ (sep ++ List.intercalate sep (q :: rest)) := by
  simp [List.intercalate, List.intersperse]

theorem intercalate_head {α : Type} (sep : List α) (c : α) (q : List α)
    (rest : List (List α)) :
    ∃ r, List.intercalate sep ((c :: q) :: rest) = c :: r := by
  cases rest with
  | nil => exact ⟨q, by simp [List.intercalate, List.intersperse]⟩
  | cons x xs => exact ⟨_, by rw [intercalate_cons_cons]; rfl⟩

theorem intercalate_runs :
    ∀ parts : List (List Char),
      (∀ p ∈ parts, runsBelow 2 0 p = true ∧ p ≠ [] ∧ p.head? ≠ some '\n' ∧
        p.getLast? ≠ some '\n') →
      runsBelow 3 0 (List.intercalate ['\n', '\n'] parts) = true
  | [], _ => by simp [List.intercalate, runsBelow]
  | [p], h => by
    have hp := h p (by simp)
    have : List.intercalate ['\n', '\n'] [p] = p := by simp [List.intercalate, List.intersperse]
    rw [this]
    exact runsBelow_mono_bound (by decide) p 0 hp.1
  | p :: q :: rest, h => by
    have hp := h p (by simp)
    have hq := h q (by simp)
    have ih := intercalate_runs (q :: rest) (fun x hx => h x (List.mem_cons_of_mem _ hx))
    rw [intercalate_cons_cons]
    apply runsBelow_append _ _ p 0 hp.2.1 hp.2.2.2 (runsBelow_mono_bound (by decide) p 0 hp.1)
    cases hqc : q with
    | nil => exact absurd hqc hq.2.1
    | cons c q' =>
      have hc : c ≠ '\n' := by
        intro hcn
        apply hq.2.2.1
        rw [hqc, hcn]
        rfl
      obtain ⟨r, hr⟩ := intercalate_head ['\n', '\n'] c q' rest
      rw [hqc, hr] at ih
      rw [hr]
      rw [runsBelow_head 0 _ hc] at ih
      simp only [List.cons_append, List.nil_append]
      unfold runsBelow
      simp only [if_true, Bool.and_eq_true, decide_eq_true_eq]
      refine ⟨by omega, ?_⟩
      unfold runsBelow
      simp only [if_true, Bool.and_eq_true, decide_eq_true_eq]
      refine ⟨by omega, ?_⟩
      rw [runsBelow_head _ _ hc]
      exact ih

/-! ### The fallback branch of the body text -/

theorem collapseBlankLinesAux_runs (l : List Char) :
    ∀ k : Nat, k ≤ 2 → runsBelow 3 k (collapseBlankLinesAux k l) = true := by
  induction l with
  | nil => intro k _; simp [collapseBlankLinesAux, runsBelow]
  | cons c cs ih =>
    intro k hk
    unfold collapseBlankLinesAux
    by_cases hc : c = '\n'
    · by_cases h2 : 2 ≤ k
      · simp only [hc, if_true, h2]
        exact ih k hk
      · simp only [hc, if_true, h2, if_false]
        unfold runsBelow
        simp only [if_true, Bool.and_eq_true, decide_eq_true_eq]
        exact ⟨by omega, ih (k + 1) (by omega)⟩
    · simp only [hc, if_false]
      rw [runsBelow_head _ _ hc]
      exact ih 0 (by omega)

/-- The fallback branch never leaves three consecutive newlines. -/
theorem fallbackText_no_triple (t : String) : ¬ ['\n', '\n', '\n'] <:+: fallbackText t :=
  no_triple_of_runsBelow (collapseBlankLinesAux_runs _ 0 (by omega))

/-! ### Claims about the body text -/

/-- C5 (the code at the failing input): the blocks
`["Hello\nworld", "", "Next paragraph"]` yield `"Hello world\n\n\n\nNext paragraph"`.
The empty block is pushed and joined like any other, so the output is not
`"Hello world\n\nNext paragraph"` and contains three (indeed four) consecutive newlines,
which the fallback branch of the same function would have collapsed. -/
theorem blocksText_empty_block_kept :
    blocksText [⟨false, "Hello\nworld"⟩, ⟨false, ""⟩, ⟨false, "Next paragraph"⟩]
      = "Hello world\n\n\n\nNext paragraph".data ∧
    blocksText [⟨false, "Hello\nworld"⟩, ⟨false, ""⟩, ⟨false, "Next paragraph"⟩]
      ≠ "Hello world\n\nNext paragraph".data ∧
    ['\n', '\n', '\n'] <:+:
      blocksText [⟨false, "Hello\nworld"⟩, ⟨false, ""⟩, ⟨false, "Next paragraph"⟩] ∧
    fallbackText "Hello world\n\n\n\nNext paragraph" = "Hello world\n\nNext paragraph".data := by
  refine ⟨by decide, by decide, ?_, by decide⟩
  exact ⟨"Hello world".data, "\nNext paragraph".data, by decide⟩

/-- What the block branch does guarantee: the body text is the per-block texts joined
by `"\n\n"`; when no per-block text is empty or starts or ends with a newline, the
output contains no three consecutive newlines; the blocks
`["Hello\nworld", "Next paragraph"]` yield `"Hello world\n\nNext paragraph"`. -/
theorem blocksText_no_triple_newline (blocks : List Block) (_hne : blocks ≠ [])
    (hparts : ∀ b ∈ blocks, blockPart b ≠ [] ∧ (blockPart b).head? ≠ some '\n' ∧
      (blockPart b).getLast? ≠ some '\n') :
    blocksText blocks = List.intercalate "\n\n".data (blocks.map blockPart) ∧
    ¬ ['\n', '\n', '\n'] <:+: blocksText blocks ∧
    (∀ b ∈ blocks, ¬ ['\n', '\n'] <:+: blockPart b) ∧
    blocksText [⟨false, "Hello\nworld"⟩, ⟨false, "Next paragraph"⟩]
      = "Hello world\n\nNext paragraph".data := by
  refine ⟨rfl, ?_, ?_, by decide⟩
  · apply no_triple_of_runsBelow
    apply intercalate_runs
    intro p hp
    obtain ⟨b, hb, rfl⟩ := List.mem_map.mp hp
    exact ⟨blockPart_runs b, hparts b hb⟩
  · intro b _
    exact no_pair_of_runsBelow (blockPart_runs b)

/-- Worked instance: a paragraph with a soft break and a list item with blank lines. -/
theorem blocksText_no_triple_newline_witness :
    ([Block.mk false "Hello\nworld", Block.mk true "Next\n\n\nparagraph"] ≠ [] ∧
      ∀ b ∈ [Block.mk false "Hello\nworld", Block.mk true "Next\n\n\nparagraph"],
        blockPart b ≠ [] ∧ (blockPart b).head? ≠ some '\n' ∧
          (blockPart b).getLast? ≠ some '\n') ∧
    ¬ ['\n', '\n', '\n'] <:+:
      blocksText [Block.mk false "Hello\nworld", Block.mk true "Next\n\n\nparagraph"] :=
  have h : ∀ b ∈ [Block.mk false "Hello\nworld", Block.mk true "Next\n\n\nparagraph"],
      blockPart b ≠ [] ∧ (blockPart b).head? ≠ some '\n' ∧
        (blockPart b).getLast? ≠ some '\n' := by
    intro b hb
    simp only [List.mem_cons, List.mem_singleton, List.not_mem_nil, or_false] at hb
    rcases hb with rfl | rfl
    · decide
    · decide
  ⟨⟨by simp, h⟩, (blocksText_no_triple_newline _ (by simp) h).2.1⟩

/-- C10 (the code at the failing input): the block text `"a\nb\nc"` is normalised to
`"a b\nc"`.  The match `a\nb` consumes `b`, so the second newline, although it stands
between the non-white-space characters `b` and `c`, is not replaced. -/
theorem normalizeBlock_overlapping_soft_break :
    normalizeBlock "a\nb\nc" = "a b\nc".data ∧
    ['b', '\n', 'c'] <:+: normalizeBlock "a\nb\nc" ∧
    isJsSpace 'b' = false ∧ isJsSpace 'c' = false ∧
    ¬ (∀ (t : String) (x y : Char), [x, '\n', y] <:+: normalizeBlock t →
        isJsSpace x = true ∨ isJsSpace y = true) := by
  have hinf : ['b', '\n', 'c'] <:+: normalizeBlock "a\nb\nc" :=
    ⟨"a ".data, [], by decide⟩
  refine ⟨by decide, hinf, by decide, by decide, ?_⟩
  intro h
  rcases h "a\nb\nc" 'b' 'c' hinf with h1 | h1
  · exact absurd h1 (by decide)
  · exact absurd h1 (by decide)

/-- The per-block normalisation never leaves two consecutive newlines. -/
theorem normalizeBlock_no_blank_line (t : String) :
    ¬ ['\n', '\n'] <:+: normalizeBlock t :=
  no_pair_of_runsBelow (normalizeBlock_runs t)

/-! ### Reading a written candidate list -/

theorem space_not_digit {x : Char} (h : isJsSpace x = true) : x.isDigit = false := by
  cases hd : x.isDigit with
  | false => rfl
  | true =>
    exfalso
    rw [isDigit_iff] at hd
    unfold isJsSpace at h
    simp at h
    omega

theorem space_ne_comma {x : Char} (h : isJsSpace x = true) : x ≠ ',' := by
  rintro rfl
  exact absurd h (by decide)

theorem digit_ne_comma {x : Char} (h : x.isDigit = true) : x ≠ ',' := by
  rintro rfl
  exact absurd h (by decide)

theorem dropWhile_append_all {α : Type} (p : α → Bool) (l r : List α)
    (h : ∀ x ∈ l, p x = true) : (l ++ r).dropWhile p = r.dropWhile p := by
  induction l with
  | nil => rfl
  | cons a as ih =>
    have ha : p a = true := h a (List.mem_cons_self _ _)
    simp only [List.cons_append, List.dropWhile_cons, ha, if_true]
    exact ih (fun x hx => h x (List.mem_cons_of_mem _ hx))

theorem takeWhile_append_all {α : Type} (p : α → Bool) (l r : List α)
    (h : ∀ x ∈ l, p x = true) : (l ++ r).takeWhile p = l ++ r.takeWhile p := by
  induction l with
  | nil => rfl
  | cons a as ih =>
    have ha : p a = true := h a (List.mem_cons_self _ _)
    simp only [List.cons_append, List.takeWhile_cons, ha, if_true]
    rw [ih (fun x hx => h x (List.mem_cons_of_mem _ hx))]

theorem dropWhile_head_false {α : Type} (p : α → Bool) (l : List α)
    (h : ∀ y ∈ l.head?, p y = false) : l.dropWhile p = l ∧ l.takeWhile p = [] := by
  cases l with
  | nil => exact ⟨rfl, rfl⟩
  | cons a as =>
    have ha : p a = false := h a rfl
    simp [List.dropWhile_cons, List.takeWhile_cons, ha]

/-- Trimming removes the white space around a text that neither starts nor ends with
white space. -/
theorem trimChars_padded (lead body trail : List Char)
    (hl : ∀ x ∈ lead, isJsSpace x = true) (ht : ∀ x ∈ trail, isJsSpace x = true)
    (hh : ∀ y ∈ body.head?, isJsSpace y = false)
    (hlast : ∀ y ∈ body.getLast?, isJsSpace y = false) (hb : body ≠ []) :
    trimChars (lead ++ (body ++ trail)) = body := by
  unfold trimChars
  rw [dropWhile_append_all _ _ _ hl]
  have h1 : (body ++ trail).dropWhile isJsSpace = body ++ trail := by
    apply (dropWhile_head_false _ _ _).1
    intro y hy
    cases body with
    | nil => exact absurd rfl hb
    | cons b bs => exact hh y (by simpa using hy)
  rw [h1, List.reverse_append]
  rw [dropWhile_append_all _ _ _ (fun x hx => ht x (List.mem_reverse.mp hx))]
  have h2 : body.reverse.dropWhile isJsSpace = body.reverse := by
    apply (dropWhile_head_false _ _ _).1
    intro y hy
    rw [List.head?_reverse] at hy
    exact hlast y hy
  rw [h2, List.reverse_reverse]

theorem splitComma_no_comma : ∀ (s : List Char), ',' ∉ s → splitComma s = [s]
  | [], _ => rfl
  | c :: cs, h => by
    have hc : c ≠ ',' := fun hc => h (by simp [hc])
    have hcs : ',' ∉ cs := fun hm => h (List.mem_cons_of_mem _ hm)
    simp [splitComma, hc, splitComma_no_comma cs hcs]

theorem splitComma_append : ∀ (s rest : List Char), ',' ∉ s →
    splitComma (s ++ ',' :: rest) = s :: splitComma rest
  | [], rest, _ => by simp [splitComma]
  | c :: cs, rest, h => by
    have hc : c ≠ ',' := fun hc => h (by simp [hc])
    have hcs : ',' ∉ cs := fun hm => h (List.mem_cons_of_mem _ hm)
    simp [splitComma, hc, splitComma_append cs rest hcs]

theorem splitComma_intercalate : ∀ (segs : List (List Char)), segs ≠ [] →
    (∀ s ∈ segs, ',' ∉ s) → splitComma (List.intercalate [','] segs) = segs
  | [], h, _ => absurd rfl h
  | [s], _, h => by
    have : List.intercalate [','] [s] = s := by simp [List.intercalate, List.intersperse]
    rw [this]
    exact splitComma_no_comma s (h s (by simp))
  | s :: t :: rest, _, h => by
    rw [intercalate_cons_cons]
    simp only [List.singleton_append]
    rw [splitComma_append s _ (h s (by simp))]
    rw [splitComma_intercalate (t :: rest) (by simp)
      (fun x hx => h x (List.mem_cons_of_mem _ hx))]

theorem written_no_comma (c : WrittenCandidate) (h : c.WellFormed) : ',' ∉ c.text := by
  obtain ⟨hl, ht, _, hg, _, hd, _, hu, _, _⟩ := h
  unfold WrittenCandidate.text
  simp only [List.mem_append, List.mem_cons, not_or]
  refine ⟨fun hm => space_ne_comma (hl _ hm) rfl, hu, fun hm => space_ne_comma (hg _ hm) rfl,
    fun hm => digit_ne_comma (hd _ hm) rfl, by decide, fun hm => space_ne_comma (ht _ hm) rfl⟩

/-- Trimming the text of a written candidate leaves the URL, the gap and the width
descriptor. -/
theorem written_trim (c : WrittenCandidate) (h : c.WellFormed) :
    trimChars c.text = c.url ++ (c.gap ++ (c.digits ++ ['w'])) := by
  obtain ⟨hl, ht, _, _, _, _, hune, _, hh, _⟩ := h
  have hshape : c.text = c.lead ++ ((c.url ++ (c.gap ++ (c.digits ++ ['w']))) ++ c.trail) := by
    simp [WrittenCandidate.text]
  rw [hshape]
  apply trimChars_padded _ _ _ hl ht
  · intro y hy
    cases hu : c.url with
    | nil => exact absurd hu hune
    | cons u us =>
      rw [hu] at hy
      simp at hy
      subst hy
      exact hh u (by rw [hu]; rfl)
  · intro y hy
    have : (c.url ++ (c.gap ++ (c.digits ++ ['w']))).getLast? = some 'w' := by
      simp [List.getLast?_append]
    rw [this] at hy
    simp at hy
    subst hy
    decide
  · simp

/-- The loop of `fromSrcset` reads the URL and the digits of a written candidate. -/
theorem parseCandidate_written (c : WrittenCandidate) (h : c.WellFormed) :
    parseCandidate (c.url ++ (c.gap ++ (c.digits ++ ['w'])))
      = ⟨c.url, parseIntDigits c.digits, true⟩ := by
  obtain ⟨_, _, hgne, hg, hdne, hd, hune, _, hh, hlast⟩ := h
  have hrev : (c.url ++ (c.gap ++ (c.digits ++ ['w']))).reverse
      = 'w' :: (c.digits.reverse ++ (c.gap.reverse ++ c.url.reverse)) := by
    simp [List.reverse_append]
  have hdr : ∀ x ∈ c.digits.reverse, x.isDigit = true :=
    fun x hx => hd x (List.mem_reverse.mp hx)
  have hgr : ∀ x ∈ c.gap.reverse, isJsSpace x = true :=
    fun x hx => hg x (List.mem_reverse.mp hx)
  have hghead : ∀ y ∈ (c.gap.reverse ++ c.url.reverse).head?, y.isDigit = false := by
    intro y hy
    cases hgr' : c.gap.reverse with
    | nil => exact absurd (List.reverse_eq_nil_iff.mp hgr') hgne
    | cons g gs =>
      rw [hgr'] at hy
      simp at hy
      subst hy
      exact space_not_digit (hgr g (by rw [hgr']; simp))
  have huhead : ∀ y ∈ c.url.reverse.head?, isJsSpace y = false := by
    intro y hy
    rw [List.head?_reverse] at hy
    exact hlast y hy
  have h1 : (c.digits.reverse ++ (c.gap.reverse ++ c.url.reverse)).takeWhile Char.isDigit
      = c.digits.reverse := by
    rw [takeWhile_append_all _ _ _ hdr, (dropWhile_head_false _ _ hghead).2]
    simp
  have h2 : (c.digits.reverse ++ (c.gap.reverse ++ c.url.reverse)).dropWhile Char.isDigit
      = c.gap.reverse ++ c.url.reverse := by
    rw [dropWhile_append_all _ _ _ hdr, (dropWhile_head_false _ _ hghead).1]
  have h3 : (c.gap.reverse ++ c.url.reverse).takeWhile isJsSpace = c.gap.reverse := by
    rw [takeWhile_append_all _ _ _ hgr, (dropWhile_head_false _ _ huhead).2]
    simp
  have h4 : (c.gap.reverse ++ c.url.reverse).dropWhile isJsSpace = c.url.reverse := by
    rw [dropWhile_append_all _ _ _ hgr, (dropWhile_head_false _ _ huhead).1]
  have h5 : trimChars c.url = c.url := by
    have := trimChars_padded [] c.url [] (by simp) (by simp) hh hlast hune
    simpa using this
  unfold parseCandidate
  rw [hrev]
  simp only [h1, h2, h3, h4, List.reverse_reverse, h5]
  rw [if_pos]
  refine ⟨trivial, ?_, ?_⟩
  · simpa using hdne
  · simpa using hgne

/-! ### The loop of `fromSrcset` -/

theorem srcset_fold_last_max (ws : List WrittenCandidate) (hu : ∀ c ∈ ws, c.url ≠ []) :
    (ws = [] ∧
      (ws.map (fun c => (⟨c.url, JsNumber.finite (digitsValue c.digits), true⟩ :
        SrcsetCandidate))).foldl srcsetStep ([], JsNumber.finite (-1))
        = ([], JsNumber.finite (-1))) ∨
    ∃ pre c post, ws = pre ++ c :: post ∧
      (ws.map (fun c => (⟨c.url, JsNumber.finite (digitsValue c.digits), true⟩ :
        SrcsetCandidate))).foldl srcsetStep ([], JsNumber.finite (-1))
        = (c.url, JsNumber.finite (digitsValue c.digits)) ∧
      (∀ x ∈ pre, digitsValue x.digits ≤ digitsValue c.digits) ∧
      (∀ x ∈ post, digitsValue x.digits < digitsValue c.digits) := by
  induction ws using List.reverseRecOn with
  | nil => exact Or.inl ⟨rfl, rfl⟩
  | append_singleton xs d ih =>
    right
    have hd : d.url ≠ [] := hu d (by simp)
    have hxs : ∀ c ∈ xs, c.url ≠ [] := fun c hc => hu c (by simp [hc])
    rw [List.map_append, List.foldl_append]
    simp only [List.map_cons, List.map_nil, List.foldl_cons, List.foldl_nil]
    rcases ih hxs with ⟨hnil, hfold⟩ | ⟨pre, c, post, hsplit, hfold, hpre, hpost⟩
    · subst hnil
      refine ⟨[], d, [], by simp, ?_, by simp, by simp⟩
      simp only [List.map_nil, List.foldl_nil, srcsetStep, jsLe]
      rw [if_pos]
      refine ⟨hd, ?_⟩
      simp only [decide_eq_true_eq]
      omega
    · rw [hfold]
      by_cases hle : digitsValue c.digits ≤ digitsValue d.digits
      · refine ⟨xs, d, [], by simp, ?_, ?_, by simp⟩
        · simp only [srcsetStep, jsLe]
          rw [if_pos]
          refine ⟨hd, ?_⟩
          simp only [decide_eq_true_eq]
          exact_mod_cast hle
        · intro x hx
          rw [hsplit] at hx
          rcases List.mem_append.mp hx with h1 | h1
          · exact le_trans (hpre x h1) hle
          · rcases List.mem_cons.mp h1 with h2 | h2
            · rw [h2]; exact hle
            · exact le_trans (le_of_lt (hpost x h2)) hle
      · refine ⟨pre, c, post ++ [d], by simp [hsplit], ?_, hpre, ?_⟩
        · simp only [srcsetStep, jsLe]
          rw [if_neg]
          intro hcon
          apply hle
          have := hcon.2
          simp only [decide_eq_true_eq] at this
          exact_mod_cast this
        · intro x hx
          rcases List.mem_append.mp hx with h1 | h1
          · exact hpost x h1
          · simp at h1
            subst h1
            omega

/-! ### Claim about `fromSrcset` -/

/-- C9 (as stated, refuted): in `"a.jpg 100w, b.jpg 100w"` both candidates declare the
largest width and `fromSrcset` returns the one listed last, not the one listed first;
and in `"a.jpg 9007199254740993w, b.jpg 9007199254740992w"` the first candidate declares
the largest width, both widths have the same Number value, and `fromSrcset` returns the
second. -/
theorem fromSrcset_tie_takes_last :
    srcsetCandidates "a.jpg 100w, b.jpg 100w"
      = [⟨"a.jpg".data, JsNumber.finite 100, true⟩, ⟨"b.jpg".data, JsNumber.finite 100, true⟩] ∧
    fromSrcset (some "a.jpg 100w, b.jpg 100w") = "b.jpg" ∧
    fromSrcset (some "a.jpg 100w, b.jpg 100w") ≠ "a.jpg" ∧
    srcsetCandidates "a.jpg 9007199254740993w, b.jpg 9007199254740992w"
      = [⟨"a.jpg".data, JsNumber.finite 9007199254740992, true⟩,
         ⟨"b.jpg".data, JsNumber.finite 9007199254740992, true⟩] ∧
    fromSrcset (some "a.jpg 9007199254740993w, b.jpg 9007199254740992w") = "b.jpg" := by
  refine ⟨by decide, by decide, by decide, by decide, by decide⟩

/-- C9 (amended): for every candidate list in which every candidate has a non-empty URL
and a width descriptor whose integer is below `2 ^ 53`, `fromSrcset` returns the URL of
a candidate with the largest declared width, and when several candidates share that
width it returns the one listed last. -/
theorem fromSrcset_largest_width (cs : List WrittenCandidate) (hne : cs ≠ [])
    (hwf : ∀ c ∈ cs, c.WellFormed) (hexact : ∀ c ∈ cs, digitsValue c.digits < 2 ^ 53) :
    ∃ pre c post, cs = pre ++ c :: post ∧
      fromSrcset (some (srcsetText cs)) = String.mk c.url ∧
      (∀ x ∈ pre, digitsValue x.digits ≤ digitsValue c.digits) ∧
      (∀ x ∈ post, digitsValue x.digits < digitsValue c.digits) := by
  have hurl : ∀ c ∈ cs, c.url ≠ [] := fun c hc => (hwf c hc).2.2.2.2.2.2.1
  have hsplit : splitComma (srcsetText cs).data = cs.map WrittenCandidate.text := by
    unfold srcsetText
    apply splitComma_intercalate
    · simpa using hne
    · intro s hs
      obtain ⟨c, hc, rfl⟩ := List.mem_map.mp hs
      exact written_no_comma c (hwf c hc)
  have hparsed : ((splitComma (srcsetText cs).data).map trimChars).map parseCandidate
      = cs.map (fun c => (⟨c.url, JsNumber.finite (digitsValue c.digits), true⟩ :
          SrcsetCandidate)) := by
    rw [hsplit, List.map_map, List.map_map]
    apply List.map_congr_left
    intro c hc
    simp only [Function.comp]
    rw [written_trim c (hwf c hc), parseCandidate_written c (hwf c hc)]
    simp only [parseIntDigits, toDouble_exact (hexact c hc)]
  have hs : srcsetText cs ≠ "" := by
    intro h
    have hd : (srcsetText cs).data = [] := by rw [h]
    rw [hd] at hsplit
    cases cs with
    | nil => exact hne rfl
    | cons c rest =>
      have h0 : c.text = [] := by
        have := hsplit
        simp only [splitComma, List.map_cons] at this
        exact (List.cons.inj this).1.symm
      simp [WrittenCandidate.text] at h0
  rcases srcset_fold_last_max cs hurl with ⟨hnil, _⟩ | ⟨pre, c, post, hsp, hfold, hpre, hpost⟩
  · exact absurd hnil hne
  · refine ⟨pre, c, post, hsp, ?_, hpre, hpost⟩
    have hc : c.url ≠ [] := hurl c (by rw [hsp]; simp)
    simp only [fromSrcset, hs, if_false, hparsed, hfold, ne_eq, hc, not_false_eq_true, if_true]

/-- Worked instance: four candidates, two of which declare the largest width. -/
theorem fromSrcset_largest_width_witness :
    (exampleSrcset ≠ [] ∧ (∀ c ∈ exampleSrcset, c.WellFormed) ∧
      ∀ c ∈ exampleSrcset, digitsValue c.digits < 2 ^ 53) ∧
    srcsetText exampleSrcset = "s.jpg 300w, m.jpg 768w, l.jpg 768w, t.jpg 150w" ∧
    fromSrcset (some "s.jpg 300w, m.jpg 768w, l.jpg 768w, t.jpg 150w") = "l.jpg" ∧
    ∃ pre c post, exampleSrcset = pre ++ c :: post ∧
      fromSrcset (some (srcsetText exampleSrcset)) = String.mk c.url ∧
      (∀ x ∈ pre, digitsValue x.digits ≤ digitsValue c.digits) ∧
      (∀ x ∈ post, digitsValue x.digits < digitsValue c.digits) :=
  have hwf : ∀ c ∈ exampleSrcset, c.WellFormed := by
    intro c hc
    simp only [exampleSrcset, List.mem_cons, List.mem_singleton, List.not_mem_nil,
      or_false] at hc
    rcases hc with rfl | rfl | rfl | rfl <;>
      · unfold WrittenCandidate.WellFormed
        decide
  have hex : ∀ c ∈ exampleSrcset, digitsValue c.digits < 2 ^ 53 := by
    intro c hc
    simp only [exampleSrcset, List.mem_cons, List.mem_singleton, List.not_mem_nil,
      or_false] at hc
    rcases hc with rfl | rfl | rfl | rfl <;> decide
  ⟨⟨by decide, hwf, hex⟩, by decide, by decide,
    fromSrcset_largest_width exampleSrcset (by decide) hwf hex⟩

/-! ### Keeping first occurrences -/

theorem dedupSeen_mem {α β : Type} [DecidableEq β] (key : α → β) :
    ∀ (xs : List α) (seen : List β) (e : α), e ∈ dedupSeen key seen xs →
      e ∈ xs ∧ key e ∉ seen
  | [], _, e, h => by simp [dedupSeen] at h
  | x :: xs, seen, e, h => by
    unfold dedupSeen at h
    by_cases hx : key x ∈ seen
    · rw [if_pos hx] at h
      have := dedupSeen_mem key xs seen e h
      exact ⟨List.mem_cons_of_mem _ this.1, this.2⟩
    · rw [if_neg hx] at h
      rcases List.mem_cons.mp h with h1 | h1
      · subst h1
        exact ⟨List.mem_cons_self _ _, hx⟩
      · have := dedupSeen_mem key xs (key x :: seen) e h1
        exact ⟨List.mem_cons_of_mem _ this.1, fun hc => this.2 (List.mem_cons_of_mem _ hc)⟩

theorem dedupSeen_nodup {α β : Type} [DecidableEq β] (key : α → β) :
    ∀ (xs : List α) (seen : List β), ((dedupSeen key seen xs).map key).Nodup
  | [], _ => by simp [dedupSeen]
  | x :: xs, seen => by
    unfold dedupSeen
    by_cases hx : key x ∈ seen
    · rw [if_pos hx]
      exact dedupSeen_nodup key xs seen
    · rw [if_neg hx]
      rw [List.map_cons, List.nodup_cons]
      refine ⟨?_, dedupSeen_nodup key xs _⟩
      intro hmem
      obtain ⟨e, he, hke⟩ := List.mem_map.mp hmem
      have := (dedupSeen_mem key xs _ e he).2
      apply this
      rw [hke]
      exact List.mem_cons_self _ _

theorem dedupSeen_cover {α β : Type} [DecidableEq β] (key : α → β) :
    ∀ (xs : List α) (seen : List β) (x : α), x ∈ xs → key x ∉ seen →
      key x ∈ (dedupSeen key seen xs).map key
  | [], _, x, h, _ => by cases h
  | y :: ys, seen, x, h, hns => by
    unfold dedupSeen
    by_cases hy : key y ∈ seen
    · rw [if_pos hy]
      rcases List.mem_cons.mp h with h1 | h1
      · subst h1
        exact absurd hy hns
      · exact dedupSeen_cover key ys seen x h1 hns
    · rw [if_neg hy]
      rw [List.map_cons]
      by_cases hk : key x = key y
      · rw [hk]
        exact List.mem_cons_self _ _
      · rcases List.mem_cons.mp h with h1 | h1
        · subst h1
          exact absurd rfl hk
        · apply List.mem_cons_of_mem
          apply dedupSeen_cover key ys _ x h1
          intro hc
          rcases List.mem_cons.mp hc with h2 | h2
          · exact hk h2
          · exact hns h2

theorem dedupSeen_first {α β : Type} [DecidableEq β] (key : α → β) :
    ∀ (xs : List α) (seen : List β) (e : α), e ∈ dedupSeen key seen xs →
      xs.find? (fun x => key x == key e) = some e
  | [], _, e, h => by simp [dedupSeen] at h
  | x :: xs, seen, e, h => by
    unfold dedupSeen at h
    by_cases hx : key x ∈ seen
    · rw [if_pos hx] at h
      have hm := dedupSeen_mem key xs seen e h
      have hne : key x ≠ key e := fun hc => hm.2 (hc ▸ hx)
      rw [List.find?_cons_of_neg _ (by simpa using hne)]
      exact dedupSeen_first key xs seen e h
    · rw [if_neg hx] at h
      rcases List.mem_cons.mp h with h1 | h1
      · subst h1
        simp
      · have hm := dedupSeen_mem key xs _ e h1
        have hne : key x ≠ key e := fun hc => hm.2 (hc ▸ List.mem_cons_self _ _)
        rw [List.find?_cons_of_neg _ (by simpa using hne)]
        exact dedupSeen_first key xs _ e h1

theorem dedupSeen_order {α β : Type} [DecidableEq β] (key : α → β) :
    ∀ (xs : List α) (seen : List β) (a b : β),
      a ∈ (dedupSeen key seen xs).map key → b ∈ (dedupSeen key seen xs).map key →
      (((dedupSeen key seen xs).map key).indexOf a < ((dedupSeen key seen xs).map key).indexOf b
        ↔ (xs.map key).indexOf a < (xs.map key).indexOf b)
  | [], _, a, b, ha, _ => by simp [dedupSeen] at ha
  | x :: xs, seen, a, b, ha, hb => by
    unfold dedupSeen at ha hb ⊢
    by_cases hx : key x ∈ seen
    · rw [if_pos hx] at ha hb ⊢
      have hax : a ≠ key x := by
        rintro rfl
        obtain ⟨e, he, hke⟩ := List.mem_map.mp ha
        exact (dedupSeen_mem key xs seen e he).2 (hke ▸ hx)
      have hbx : b ≠ key x := by
        rintro rfl
        obtain ⟨e, he, hke⟩ := List.mem_map.mp hb
        exact (dedupSeen_mem key xs seen e he).2 (hke ▸ hx)
      rw [List.map_cons, List.indexOf_cons_ne _ hax.symm, List.indexOf_cons_ne _ hbx.symm]
      rw [dedupSeen_order key xs seen a b ha hb]
      omega
    · rw [if_neg hx] at ha hb ⊢
      have hnot : ∀ c, c ∈ (dedupSeen key (key x :: seen) xs).map key → c ≠ key x := by
        rintro c hc rfl
        obtain ⟨e, he, hke⟩ := List.mem_map.mp hc
        exact (dedupSeen_mem key xs _ e he).2 (hke ▸ List.mem_cons_self _ _)
      rw [List.map_cons] at ha hb ⊢
      rw [List.map_cons]
      by_cases hax : a = key x
      · by_cases hbx : b = key x
        · rw [hax, hbx]
          simp only [List.indexOf_cons_self, lt_self_iff_false]
        · rw [hax, List.indexOf_cons_ne _ (Ne.symm hbx), List.indexOf_cons_ne _ (Ne.symm hbx)]
          simp only [List.indexOf_cons_self]
          omega
      · by_cases hbx : b = key x
        · rw [hbx, List.indexOf_cons_ne _ (Ne.symm hax), List.indexOf_cons_ne _ (Ne.symm hax)]
          simp only [List.indexOf_cons_self]
          omega
        · have ha2 : a ∈ (dedupSeen key (key x :: seen) xs).map key := by
            rcases List.mem_cons.mp ha with h | h
            · exact absurd h hax
            · exact h
          have hb2 : b ∈ (dedupSeen key (key x :: seen) xs).map key := by
            rcases List.mem_cons.mp hb with h | h
            · exact absurd h hbx
            · exact h
          rw [List.indexOf_cons_ne _ (Ne.symm hax), List.indexOf_cons_ne _ (Ne.symm hbx),
            List.indexOf_cons_ne _ (Ne.symm hax), List.indexOf_cons_ne _ (Ne.symm hbx)]
          rw [Nat.succ_lt_succ_iff, Nat.succ_lt_succ_iff]
          exact dedupSeen_order key xs _ a b ha2 hb2

theorem foldl_setAdd_eq (xs : List String) :
    ∀ (acc seen : List String), (∀ k, k ∈ seen ↔ k ∈ acc) →
      xs.foldl setAdd acc = acc ++ dedupSeen id seen xs := by
  induction xs with
  | nil => intro acc seen _; simp [dedupSeen]
  | cons x xs ih =>
    intro acc seen h
    simp only [List.foldl_cons, dedupSeen, id]
    by_cases hx : x ∈ acc
    · have hs : x ∈ seen := (h x).mpr hx
      rw [if_pos hs]
      simp only [setAdd, if_pos hx]
      exact ih acc seen h
    · have hs : x ∉ seen := fun hc => hx ((h x).mp hc)
      rw [if_neg hs]
      simp only [setAdd, if_neg hx]
      rw [ih (acc ++ [x]) (x :: seen)]
      · simp
      · intro k
        simp [h k, or_comm]

theorem collectMedia_eq (parseUrl : String → Option Url) (inp : MediaInputs) :
    collectMedia parseUrl inp = dedupSeen id [] (offeredKeys parseUrl inp) := by
  unfold collectMedia
  rw [foldl_setAdd_eq _ [] [] (fun _ => Iff.rfl)]
  simp

/-! ### Claim about the media set -/

theorem stripped_eq_of_sameMedia {x y : Url} (h : x.SameMedia y) : x.stripped = y.stripped := by
  obtain ⟨hs, hh, hp, hpath⟩ := h
  have hhost : x.host.map (fun h => String.mk (jsToLowerCase h.data))
      = y.host.map (fun h => String.mk (jsToLowerCase h.data)) := by
    cases hx : x.host with
    | none =>
      cases hy : y.host with
      | none => rfl
      | some b => rw [hx, hy] at hh; cases hh
    | some a =>
      cases hy : y.host with
      | none => rw [hx, hy] at hh; cases hh
      | some b =>
        rw [hx, hy] at hh
        simp only [Option.map_some', Option.some.injEq] at hh ⊢
        rw [hh]
  simp only [Url.stripped, hs, hp, hpath, hhost]

/-- C6: the `images` list holds every offered MediaKey exactly once, its order is the
order in which the keys were first offered, and two URLs that differ only in query
string, fragment, credentials or letter case of the host have the same MediaKey, so
that the pair contributes at most one entry. -/
theorem collectMedia_first_seen (parseUrl : String → Option Url) (inp : MediaInputs) :
    (collectMedia parseUrl inp).Nodup ∧
    (∀ k, k ∈ collectMedia parseUrl inp ↔ k ∈ offeredKeys parseUrl inp) ∧
    (∀ a ∈ collectMedia parseUrl inp, ∀ b ∈ collectMedia parseUrl inp,
      ((collectMedia parseUrl inp).indexOf a < (collectMedia parseUrl inp).indexOf b ↔
        (offeredKeys parseUrl inp).indexOf a < (offeredKeys parseUrl inp).indexOf b)) ∧
    (∀ u₁ u₂ x₁ x₂, parseUrl u₁ = some x₁ → parseUrl u₂ = some x₂ → x₁.SameMedia x₂ →
      toKey parseUrl u₁ = toKey parseUrl u₂ ∧
      (collectMedia parseUrl inp).count (toKey parseUrl u₁) ≤ 1 ∧
      (parseUrl x₁.href = some x₁ → parseUrl x₂.href = some x₂ →
        toKey parseUrl (toAbs parseUrl u₁) = toKey parseUrl (toAbs parseUrl u₂))) := by
  have hnd : (collectMedia parseUrl inp).Nodup := by
    rw [collectMedia_eq]
    simpa using dedupSeen_nodup (id : String → String) (offeredKeys parseUrl inp) []
  refine ⟨hnd, ?_, ?_, ?_⟩
  · intro k
    rw [collectMedia_eq]
    constructor
    · intro h
      exact (dedupSeen_mem id _ [] k h).1
    · intro h
      simpa using dedupSeen_cover (id : String → String) (offeredKeys parseUrl inp) [] k h
        (by simp)
  · intro a ha b hb
    rw [collectMedia_eq] at ha hb ⊢
    simpa using dedupSeen_order (id : String → String) (offeredKeys parseUrl inp) [] a b
      (by simpa using ha) (by simpa using hb)
  · intro u₁ u₂ x₁ x₂ h₁ h₂ hsame
    have hk : toKey parseUrl u₁ = toKey parseUrl u₂ := by
      simp only [toKey, h₁, h₂, stripped_eq_of_sameMedia hsame]
    refine ⟨hk, List.nodup_iff_count_le_one.mp hnd _, ?_⟩
    intro hr₁ hr₂
    simp only [toAbs, toKey, h₁, h₂, hr₁, hr₂, stripped_eq_of_sameMedia hsame]

/-! ### The loop of `extractListing` -/

theorem listingInv_skip {done : List Anchor} {st : List String × List ListingEntry}
    (a : Anchor) (hinv : ListingInv done st)
    (hskip : isPostHref a.href = true → titleLongEnough a = true → a.href ∈ st.1) :
    ListingInv (done ++ [a]) st where
  seen_eq := hinv.seen_eq
  nodup := hinv.nodup
  entries := by
    intro e he
    obtain ⟨hp, pre, b, post, hd, heq, hlong, hfirst⟩ := hinv.entries e he
    exact ⟨hp, pre, b, post ++ [a], by simp [hd], heq, hlong, hfirst⟩
  seen_all := by
    intro x hx hp hl
    rcases List.mem_append.mp hx with h | h
    · exact hinv.seen_all x h hp hl
    · simp at h
      subst h
      exact hskip hp hl

theorem listingInv_push {done : List Anchor} {st : List String × List ListingEntry}
    (a : Anchor) (hinv : ListingInv done st) (hp : isPostHref a.href = true)
    (hns : a.href ∉ st.1) (hl : titleLongEnough a = true) :
    ListingInv (done ++ [a]) (st.1 ++ [a.href], st.2 ++ [entryOf a]) where
  seen_eq := by simp [hinv.seen_eq, entryOf]
  nodup := by
    rw [List.map_append, List.nodup_append]
    refine ⟨hinv.nodup, by simp, ?_⟩
    intro k hk1 hk2
    simp [entryOf] at hk2
    subst hk2
    rw [← hinv.seen_eq] at hk1
    exact hns hk1
  entries := by
    intro e he
    rcases List.mem_append.mp he with h | h
    · obtain ⟨hp', pre, b, post, hd, heq, hlong, hfirst⟩ := hinv.entries e h
      exact ⟨hp', pre, b, post ++ [a], by simp [hd], heq, hlong, hfirst⟩
    · simp at h
      subst h
      refine ⟨by simpa [entryOf] using hp, done, a, [], rfl, rfl, hl, ?_⟩
      intro x hx hxa
      cases hlx : titleLongEnough x with
      | false => rfl
      | true =>
        exfalso
        have := hinv.seen_all x hx (by rw [hxa]; exact hp) hlx
        rw [hxa] at this
        exact hns this
  seen_all := by
    intro x hx hp' hl'
    rcases List.mem_append.mp hx with h | h
    · exact List.mem_append_left _ (hinv.seen_all x h hp' hl')
    · simp at h
      subst h
      simp

theorem listingLoop_inv :
    ∀ (rest done : List Anchor) (st : List String × List ListingEntry),
      ListingInv done st → ListingInv (done ++ rest) (listingLoop rest st)
  | [], done, st, h => by simpa [listingLoop] using h
  | a :: rest, done, st, h => by
    have hcat : done ++ a :: rest = (done ++ [a]) ++ rest := by simp
    rw [hcat]
    unfold listingLoop
    by_cases hp : isPostHref a.href = false
    · rw [if_pos hp]
      exact listingLoop_inv rest _ st (listingInv_skip a h (fun h1 => by rw [hp] at h1; cases h1))
    · rw [if_neg hp]
      by_cases hs : a.href ∈ st.1
      · rw [if_pos hs]
        exact listingLoop_inv rest _ st (listingInv_skip a h (fun _ _ => hs))
      · rw [if_neg hs]
        by_cases hl : titleLongEnough a = false
        · rw [if_pos hl]
          exact listingLoop_inv rest _ st
            (listingInv_skip a h (fun _ h2 => by rw [hl] at h2; cases h2))
        · rw [if_neg hl]
          exact listingLoop_inv rest _ _
            (listingInv_push a h (by simpa using hp) hs (by simpa using hl))

theorem listingInv_init : ListingInv [] ([], []) where
  seen_eq := rfl
  nodup := by simp
  entries := by intro e he; cases he
  seen_all := by intro x hx; cases hx

theorem hasPageParam_false {href : List Char} (h : hasPageParam href = false)
    (c : Char) (w : List Char) (hc : c = '?' ∨ c = '&')
    (hw : foldAscii w = "paged=".data ∨ foldAscii w = "page=".data) :
    ¬ (c :: w) <:+: href := by
  rintro ⟨s, t, hst⟩
  have hmem : (c :: (w ++ t)) ∈ href.tails := by
    rw [List.mem_tails]
    exact ⟨s, by rw [← hst]; simp⟩
  have hfalse : ∀ x ∈ href.tails, (match x with
      | [] => false
      | c :: r => (c == '?' || c == '&') &&
        (foldAscii (r.take 6) == "paged=".data || foldAscii (r.take 5) == "page=".data))
      = false := by
    intro x hx
    unfold hasPageParam at h
    rw [List.any_eq_false] at h
    simpa using h x hx
  have := hfalse _ hmem
  simp only at this
  have hc2 : (c == '?' || c == '&') = true := by
    rcases hc with rfl | rfl <;> decide
  rw [hc2, Bool.true_and] at this
  rcases hw with hw | hw
  · have hlen : w.length = 6 := by
      have := congrArg List.length hw
      simpa [foldAscii] using this
    have : List.take 6 (w ++ t) = w := by
      rw [← hlen]; simp
    simp_all
  · have hlen : w.length = 5 := by
      have := congrArg List.length hw
      simpa [foldAscii] using this
    have : List.take 5 (w ++ t) = w := by
      rw [← hlen]; simp
    simp_all

/-! ### Claim about `extractListing` -/

/-- C7 (as stated, refuted): when the first anchor carrying an href has a normalised
text shorter than 5 code units, the entry returned for that href is the one of a
later anchor, not the one of the first anchor in document order. -/
theorem extractListing_skips_short_title :
    extractListing
        [⟨"https://mitadmissions.org/blogs/entry/hello/", " img ", []⟩,
         ⟨"https://mitadmissions.org/blogs/entry/hello/", "Hello, world", []⟩]
      = [⟨"Hello, world", "https://mitadmissions.org/blogs/entry/hello/", "", ""⟩] ∧
    entryOf ⟨"https://mitadmissions.org/blogs/entry/hello/", " img ", []⟩
      = ⟨"img", "https://mitadmissions.org/blogs/entry/hello/", "", ""⟩ ∧
    ¬ (∀ nodes : List Anchor, ∀ e ∈ extractListing nodes,
        ∃ pre a post, nodes = pre ++ a :: post ∧ e = entryOf a ∧
          ∀ x ∈ pre, x.href ≠ e.href) := by
  refine ⟨by decide, by decide, ?_⟩
  intro h
  obtain ⟨pre, a, post, hsplit, he, hfirst⟩ :=
    h [⟨"https://mitadmissions.org/blogs/entry/hello/", " img ", []⟩,
       ⟨"https://mitadmissions.org/blogs/entry/hello/", "Hello, world", []⟩]
      ⟨"Hello, world", "https://mitadmissions.org/blogs/entry/hello/", "", ""⟩ (by decide)
  cases pre with
  | nil =>
    simp only [List.nil_append, List.cons.injEq] at hsplit
    rw [← hsplit.1] at he
    revert he
    decide
  | cons x pre' =>
    simp only [List.cons_append, List.cons.injEq] at hsplit
    apply hfirst x (List.mem_cons_self _ _)
    rw [← hsplit.1]

/-- C7 (amended): `extractListing` returns at most 20 entries, no two with the same
href; every returned href contains `/blogs/entry/`, is not the listing index, has no
`/category/`, `/tag/` or `/author/` segment, no `paged=` or `page=` parameter and no
`#`; and the entry returned for an href is the one of the first anchor in document
order that carries this href and whose normalised text has at least 5 code units. -/
theorem extractListing_spec (nodes : List Anchor) :
    (extractListing nodes).length ≤ 20 ∧
    ((extractListing nodes).map (fun e => e.href)).Nodup ∧
    ∀ e ∈ extractListing nodes,
      "/blogs/entry/".data <:+: e.href.data ∧
      ¬ "/blogs".data <:+ e.href.data ∧ ¬ "/blogs/".data <:+ e.href.data ∧
      ¬ "/category/".data <:+: e.href.data ∧ ¬ "/tag/".data <:+: e.href.data ∧
      ¬ "/author/".data <:+: e.href.data ∧
      (∀ (c : Char) (w : List Char), c = '?' ∨ c = '&' →
        foldAscii w = "paged=".data ∨ foldAscii w = "page=".data →
        ¬ (c :: w) <:+: e.href.data) ∧
      ¬ ['#'] <:+: e.href.data ∧
      ∃ pre a post, nodes = pre ++ a :: post ∧ e = entryOf a ∧ a.href = e.href ∧
        5 ≤ jsLength (norm a.textContent).data ∧
        ∀ x ∈ pre, x.href = e.href → jsLength (norm x.textContent).data < 5 := by
  have hinv := listingLoop_inv nodes [] ([], []) listingInv_init
  rw [List.nil_append] at hinv
  refine ⟨?_, ?_, ?_⟩
  · unfold extractListing
    rw [List.length_take]
    exact Nat.min_le_left _ _
  · unfold extractListing
    exact hinv.nodup.sublist ((List.take_sublist _ _).map _)
  · intro e he
    have he2 : e ∈ (listingLoop nodes ([], [])).2 := List.mem_of_mem_take he
    obtain ⟨hp, pre, a, post, hd, heq, hlong, hfirst⟩ := hinv.entries e he2
    have hhref : a.href = e.href := by rw [heq]; rfl
    unfold isPostHref at hp
    split_ifs at hp with h1 h2 h3 h4 h5 h6
    rw [not_or] at h3
    rw [not_or, not_or] at h4
    refine ⟨h2, h3.1, h3.2, h4.1, h4.2.1, h4.2.2, ?_, h6, pre, a, post, hd, heq, hhref, ?_, ?_⟩
    · intro c w hc hw
      exact hasPageParam_false (by simpa using h5) c w hc hw
    · simpa [titleLongEnough] using hlong
    · intro x hx hxe
      have := hfirst x hx (by rw [hxe, hhref])
      simpa [titleLongEnough] using this

/-! ### The loop of `getAllPostLinks` -/

theorem pagesLoop_all_pages (fetch : Nat → PageResponse) (parseDate : String → Option Int)
    (sinceISO : Option String) (N : Nat)
    (hok : ∀ p, 1 ≤ p → p ≤ N → (fetch p).ok = true ∧
      parseInt10 (optOr (fetch p).totalPagesHeader "1").data = some (N : Int)) :
    ∀ (k p : Nat), p + k = N → 1 ≤ p → ∀ (fuel : Nat), k + 1 ≤ fuel →
      ∀ (links : List Item) (tp : Int) (fetched : List Nat),
        pagesLoop fetch parseDate sinceISO fuel links p tp fetched =
          some (links ++ ((List.range' p (k + 1)).map
              (fun q => pageLinks parseDate sinceISO (fetch q))).flatten,
            fetched ++ List.range' p (k + 1)) := by
  intro k
  induction k with
  | zero =>
    intro p hp h1 fuel hfuel links tp fetched
    obtain ⟨f, rfl⟩ : ∃ f, fuel = f + 1 := ⟨fuel - 1, by omega⟩
    have h := hok p h1 (by omega)
    unfold pagesLoop
    simp only [h.1, h.2, Bool.true_eq_false, if_false]
    rw [if_pos (by push_cast; omega)]
    simp [List.range']
  | succ k ih =>
    intro p hp h1 fuel hfuel links tp fetched
    obtain ⟨f, rfl⟩ : ∃ f, fuel = f + 1 := ⟨fuel - 1, by omega⟩
    have h := hok p h1 (by omega)
    unfold pagesLoop
    simp only [h.1, h.2, Bool.true_eq_false, if_false]
    rw [if_neg (by push_cast; omega)]
    rw [ih (p + 1) (by omega) (by omega) f (by omega)]
    rw [List.range'_succ p (k + 1)]
    simp

theorem isBeforeSince_true_iff (parseDate : String → Option Int) (sinceISO date : Option String) :
    isBeforeSince parseDate sinceISO date = true ↔
      ∃ s d ts td, sinceISO = some s ∧ date = some d ∧ s ≠ "" ∧ d ≠ "" ∧
        parseDate s = some ts ∧ parseDate d = some td ∧ td < ts := by
  constructor
  · intro h
    unfold isBeforeSince at h
    cases hs : sinceISO with
    | none => simp [hs] at h
    | some s =>
      cases hd : date with
      | none => simp [hs, hd] at h
      | some d =>
        simp only [hs, hd] at h
        split_ifs at h with hempty
        rw [not_or] at hempty
        cases hpd : parseDate d with
        | none => simp [hpd] at h
        | some td =>
          cases hps : parseDate s with
          | none => simp [hpd, hps] at h
          | some ts =>
            simp only [hpd, hps, decide_eq_true_eq] at h
            exact ⟨s, d, ts, td, rfl, rfl, hempty.1, hempty.2, hps, hpd, h⟩
  · rintro ⟨s, d, ts, td, rfl, rfl, hs, hd, hps, hpd, hlt⟩
    simp [isBeforeSince, hs, hd, hps, hpd, hlt]

/-! ### Claim about `getAllPostLinks` -/

/-- C8: when the `N ≥ 1` pages are all fetched successfully and each reports `N` as the
total page count, `getAllPostLinks` returns (any fuel of at least `N` iterations
suffices), requests exactly the pages `1..N` in order, and returns the items of all
pages, each as `{ href: link, seed: { time: date } }` and in order, without the items
dated strictly earlier than `sinceISO` (an item is removed exactly when the cutoff and
its date are both present and valid and the date is strictly earlier; an item dated at
the cutoff is kept), deduplicated by href: hrefs are pairwise distinct, every href of a
kept item occurs, the link returned for an href is the first kept one, and links are
ordered as the first occurrences of their hrefs. -/
theorem getAllPostLinks_all_pages (fetch : Nat → PageResponse)
    (parseDate : String → Option Int) (sinceISO : Option String) (N : Nat) (hN : 1 ≤ N)
    (hok : ∀ p, 1 ≤ p → p ≤ N → (fetch p).ok = true ∧
      parseInt10 (optOr (fetch p).totalPagesHeader "1").data = some (N : Int))
    (fuel : Nat) (hfuel : N ≤ fuel) :
    ∃ links kept,
      getAllPostLinks fetch parseDate sinceISO fuel = some (links, List.range' 1 N) ∧
      kept = ((((List.range' 1 N).map (fun p => (fetch p).data)).flatten).filter
          (fun it => !isBeforeSince parseDate sinceISO it.date)).map
        (fun it => ({ href := it.link,
                      seed := some { title := none, author := none, time := it.date } } :
          Item)) ∧
      (∀ date, isBeforeSince parseDate sinceISO date = true ↔
        ∃ s d ts td, sinceISO = some s ∧ date = some d ∧ s ≠ "" ∧ d ≠ "" ∧
          parseDate s = some ts ∧ parseDate d = some td ∧ td < ts) ∧
      (links.map (fun x => x.href)).Nodup ∧
      (∀ h, h ∈ links.map (fun x => x.href) ↔ h ∈ kept.map (fun x => x.href)) ∧
      (∀ e ∈ links, kept.find? (fun x => x.href == e.href) = some e) ∧
      (∀ a ∈ links.map (fun x => x.href), ∀ b ∈ links.map (fun x => x.href),
        ((links.map (fun x => x.href)).indexOf a < (links.map (fun x => x.href)).indexOf b ↔
          (kept.map (fun x => x.href)).indexOf a < (kept.map (fun x => x.href)).indexOf b)) := by
  obtain ⟨k, rfl⟩ : ∃ k, N = k + 1 := ⟨N - 1, by omega⟩
  have hloop := pagesLoop_all_pages fetch parseDate sinceISO (k + 1) hok k 1 (by omega)
    (le_refl _) fuel hfuel [] 1 []
  have hkept : ((List.range' 1 (k + 1)).map
        (fun q => pageLinks parseDate sinceISO (fetch q))).flatten
      = ((((List.range' 1 (k + 1)).map (fun p => (fetch p).data)).flatten).filter
        (fun it => !isBeforeSince parseDate sinceISO it.date)).map linkOf := by
    generalize List.range' 1 (k + 1) = ps
    induction ps with
    | nil => simp
    | cons p ps ih =>
      simp only [List.map_cons, List.flatten_cons, List.filter_append, List.map_append]
      rw [ih]
      rfl
  rw [hkept] at hloop
  simp only [List.nil_append] at hloop
  refine ⟨dedupSeen (fun x => x.href) []
      (((((List.range' 1 (k + 1)).map (fun p => (fetch p).data)).flatten).filter
        (fun it => !isBeforeSince parseDate sinceISO it.date)).map linkOf),
    ((((List.range' 1 (k + 1)).map (fun p => (fetch p).data)).flatten).filter
        (fun it => !isBeforeSince parseDate sinceISO it.date)).map linkOf,
    ?_, ?_, ?_, ?_, ?_, ?_, ?_⟩
  · unfold getAllPostLinks
    rw [hloop]
  · rfl
  · intro date
    exact isBeforeSince_true_iff parseDate sinceISO date
  · exact dedupSeen_nodup _ _ _
  · intro h
    constructor
    · intro hm
      obtain ⟨e, he, rfl⟩ := List.mem_map.mp hm
      exact List.mem_map.mpr ⟨e, (dedupSeen_mem _ _ _ e he).1, rfl⟩
    · intro hm
      obtain ⟨e, he, rfl⟩ := List.mem_map.mp hm
      exact dedupSeen_cover (fun x : Item => x.href) _ [] e he (by simp)
  · intro e he
    exact dedupSeen_first (fun x : Item => x.href) _ [] e he
  · intro a ha b hb
    exact dedupSeen_order (fun x : Item => x.href) _ [] a b ha hb

/-- Worked instance: the two pages of `examplePages` with a cutoff on 1 February; the
item of January is removed, the item of 1 February is kept once. -/
theorem getAllPostLinks_all_pages_witness :
    (1 ≤ 2 ∧
      (∀ p, 1 ≤ p → p ≤ 2 → (examplePages p).ok = true ∧
        parseInt10 (optOr (examplePages p).totalPagesHeader "1").data = some ((2 : Nat) : Int)) ∧
      2 ≤ 2) ∧
    getAllPostLinks examplePages exampleDates (some "2024-02-01T00:00:00") 2
      = some ([⟨"https://mitadmissions.org/blogs/entry/c/",
                some ⟨none, none, some "2024-03-01T00:00:00"⟩⟩,
               ⟨"https://mitadmissions.org/blogs/entry/b/",
                some ⟨none, none, some "2024-02-01T00:00:00"⟩⟩], [1, 2]) ∧
    ∃ links kept,
      getAllPostLinks examplePages exampleDates (some "2024-02-01T00:00:00") 2
        = some (links, List.range' 1 2) ∧
      kept = ((((List.range' 1 2).map (fun p => (examplePages p).data)).flatten).filter
          (fun it => !isBeforeSince exampleDates (some "2024-02-01T00:00:00") it.date)).map
        (fun it => ({ href := it.link,
                      seed := some { title := none, author := none, time := it.date } } :
          Item)) ∧
      (links.map (fun x => x.href)).Nodup :=
  have hok : ∀ p, 1 ≤ p → p ≤ 2 → (examplePages p).ok = true ∧
      parseInt10 (optOr (examplePages p).totalPagesHeader "1").data = some ((2 : Nat) : Int) := by
    intro p h1 h2
    interval_cases p
    · decide
    · decide
  ⟨⟨by decide, hok, le_refl 2⟩, by decide,
    match getAllPostLinks_all_pages examplePages exampleDates (some "2024-02-01T00:00:00") 2
      (by decide) hok 2 (le_refl 2) with
    | ⟨links, kept, h1, h2, _, h6, _⟩ => ⟨links, kept, h1, h2, h6⟩⟩

/-- Worked instance: an image and a link to it that differ in credentials, host case,
query string and fragment. -/
theorem collectMedia_first_seen_witness :
    toKey exampleParseUrl "https://user:pw@MITAdmissions.org/wp-content/uploads/a.jpg?w=300#top"
      = toKey exampleParseUrl "https://mitadmissions.org/wp-content/uploads/a.jpg" ∧
    (collectMedia exampleParseUrl
      ⟨[⟨none, none, none, none, none,
          some "https://user:pw@MITAdmissions.org/wp-content/uploads/a.jpg?w=300#top", "",
          none, none⟩],
        [], ["https://mitadmissions.org/wp-content/uploads/a.jpg"], [], []⟩).count
      (toKey exampleParseUrl
        "https://user:pw@MITAdmissions.org/wp-content/uploads/a.jpg?w=300#top") ≤ 1 :=
  have h := (collectMedia_first_seen exampleParseUrl
      ⟨[⟨none, none, none, none, none,
          some "https://user:pw@MITAdmissions.org/wp-content/uploads/a.jpg?w=300#top", "",
          none, none⟩],
        [], ["https://mitadmissions.org/wp-content/uploads/a.jpg"], [], []⟩).2.2.2
    "https://user:pw@MITAdmissions.org/wp-content/uploads/a.jpg?w=300#top"
    "https://mitadmissions.org/wp-content/uploads/a.jpg" _ _ rfl rfl
    ⟨rfl, rfl, rfl, rfl⟩
  ⟨h.1, h.2.1⟩

/-! ### The `by` rule on titles whose lower-case form has the same length -/

theorem toNat_ofNat_small (m : Nat) (h : m < 0xD800) : (Char.ofNat m).toNat = m := by
  have hv : m.isValidChar := Or.inl h
  unfold Char.ofNat
  rw [dif_pos hv]
  rfl

theorem lowerChar_single (c : Char) (h : c.toNat ≠ 0x130) :
    ∃ x, lowerChar c = [x] ∧ (x = ' ' ↔ c = ' ') := by
  unfold lowerChar
  simp only [h, if_false]
  split_ifs with hu
  · refine ⟨_, rfl, ?_⟩
    constructor
    · intro hx
      have h1 := congrArg Char.toNat hx
      rw [toNat_ofNat_small _ (by omega)] at h1
      have : (' ' : Char).toNat = 32 := rfl
      omega
    · rintro rfl
      have : (' ' : Char).toNat = 32 := rfl
      omega
  · exact ⟨c, rfl, Iff.rfl⟩

theorem jsToLowerCase_forall₂ (l : List Char) (h : ∀ c ∈ l, c.toNat ≠ 0x130) :
    List.Forall₂ (fun c x => x = ' ' ↔ c = ' ') l (jsToLowerCase l) := by
  induction l with
  | nil => exact List.Forall₂.nil
  | cons c cs ih =>
    obtain ⟨x, hx, hiff⟩ := lowerChar_single c (h c (List.mem_cons_self _ _))
    have : jsToLowerCase (c :: cs) = x :: jsToLowerCase cs := by
      simp [jsToLowerCase, hx]
    rw [this]
    exact List.Forall₂.cons hiff (ih (fun d hd => h d (List.mem_cons_of_mem _ hd)))

theorem lastIndexOfFrom_spec (pat : List Char) (hpat : pat ≠ []) :
    ∀ (s : List Char) (k : Nat) (acc : Option Nat) (i : Nat),
      lastIndexOfFrom pat s k acc = some i →
      acc = some i ∨ ∃ j, i = k + j ∧ pat <+: s.drop j
  | [], k, acc, i, h => by
    simp [lastIndexOfFrom, hpat] at h
    exact Or.inl h
  | c :: cs, k, acc, i, h => by
    unfold lastIndexOfFrom at h
    rcases lastIndexOfFrom_spec pat hpat cs (k + 1) _ i h with h1 | ⟨j, hj, hp⟩
    · split_ifs at h1 with hpre
      · right
        refine ⟨0, by simpa using (Option.some.inj h1).symm, ?_⟩
        simpa using List.isPrefixOf_iff_prefix.mp hpre
      · exact Or.inl h1
    · right
      exact ⟨j + 1, by omega, by simpa using hp⟩

theorem collapseWsAux_keeps (c : Char) (hc : isJsSpace c = false) :
    ∀ (l : List Char) (b : Bool), c ∈ l → c ∈ collapseWsAux b l
  | [], _, h => by cases h
  | x :: xs, b, h => by
    unfold collapseWsAux
    rcases List.mem_cons.mp h with h1 | h1
    · subst h1
      simp [hc]
    · have ih := fun b => collapseWsAux_keeps c hc xs b h1
      by_cases hx : isJsSpace x = true
      · cases b <;> simp [hx, ih]
      · simp [hx, ih]

theorem dropWhile_keeps (c : Char) (hc : isJsSpace c = false) (l : List Char) (h : c ∈ l) :
    c ∈ l.dropWhile isJsSpace := by
  rw [← List.takeWhile_append_dropWhile isJsSpace l] at h
  rcases List.mem_append.mp h with h1 | h1
  · have := List.mem_takeWhile_imp h1
    rw [hc] at this
    cases this
  · exact h1

theorem normChars_ne_nil (l : List Char) (c : Char) (hmem : c ∈ l) (hc : isJsSpace c = false) :
    normChars l ≠ [] := by
  have h1 := collapseWsAux_keeps c hc l false hmem
  have h2 := dropWhile_keeps c hc _ h1
  have h3 : c ∈ (List.dropWhile isJsSpace (collapseWsAux false l)).reverse :=
    List.mem_reverse.mpr h2
  have h4 := dropWhile_keeps c hc _ h3
  have h5 : c ∈ normChars l := by
    unfold normChars trimChars
    exact List.mem_reverse.mpr h4
  exact List.ne_nil_of_mem h5

theorem byRule_core (l : List Char) (hno : ∀ c ∈ l, c.toNat ≠ 0x130)
    (hhead : ∀ y ∈ l.head?, isJsSpace y ≠ true) (hlast : ∀ y ∈ l.getLast?, isJsSpace y ≠ true)
    (i : Nat) (hi : lastIndexOf " by ".data (jsToLowerCase l) = some i) :
    normChars (l.take i) ≠ [] ∧ normChars (l.drop (i + 4)) ≠ [] ∧
    ∃ b y, l.drop i = ' ' :: b :: y :: ' ' :: l.drop (i + 4) := by
  have hall := jsToLowerCase_forall₂ l hno
  have hpre : " by ".data <+: (jsToLowerCase l).drop i := by
    rcases lastIndexOfFrom_spec " by ".data (by decide) _ 0 none i hi with h | ⟨j, hj, hp⟩
    · cases h
    · have : i = j := by omega
      rw [this]
      exact hp
  have hdrop := List.forall₂_drop i hall
  obtain ⟨r', hr'⟩ := hpre
  rw [← hr'] at hdrop
  have hshape : ∃ b y r, l.drop i = ' ' :: b :: y :: ' ' :: r := by
    generalize l.drop i = d at hdrop
    cases hdrop with
    | cons h0 t0 =>
      cases t0 with
      | cons h1 t1 =>
        cases t1 with
        | cons h2 t2 =>
          cases t2 with
          | cons h3 t3 =>
            have e0 := h0.mp rfl
            have e3 := h3.mp rfl
            subst e0
            subst e3
            exact ⟨_, _, _, rfl⟩
  obtain ⟨b, y, r, hr⟩ := hshape
  have hr4 : l.drop (i + 4) = r := by
    have : l.drop (i + 4) = (l.drop i).drop 4 := by
      rw [List.drop_drop]
    rw [this, hr]
    rfl
  have hsp : isJsSpace ' ' = true := by decide
  have hl : l = l.take i ++ ' ' :: b :: y :: ' ' :: r := by
    rw [← hr]
    exact (List.take_append_drop i l).symm
  refine ⟨?_, ?_, b, y, by rw [hr, hr4]⟩
  · cases hli : l with
    | nil => rw [hli] at hr; simp at hr
    | cons c0 cs =>
      have hc0 : isJsSpace c0 = false := by
        have := hhead c0 (by rw [hli]; rfl)
        simpa using this
      cases i with
      | zero =>
        rw [hli] at hr
        simp only [List.drop_zero, List.cons.injEq] at hr
        rw [hr.1] at hc0
        rw [hsp] at hc0
        cases hc0
      | succ i' =>
        exact normChars_ne_nil _ c0 (by simp) hc0
  · rw [hr4]
    cases hrn : r with
    | nil =>
      exfalso
      rw [hrn] at hl
      have hg : l.getLast? = some ' ' := by
        rw [hl]
        simp
      exact hlast ' ' hg hsp
    | cons r0 rs =>
      have hne : (r0 :: rs) ≠ [] := by simp
      have hg : l.getLast? = some ((r0 :: rs).getLast hne) := by
        rw [hl, hrn]
        simp [List.getLast?_append, List.getLast?_cons_cons, List.getLast?_eq_getLast _ hne]
      have hc : isJsSpace ((r0 :: rs).getLast hne) = false := by
        have := hlast _ hg
        simpa using this
      exact normChars_ne_nil _ _ (List.getLast_mem hne) hc

/-- On a normalised title without U+0130 the `by` rule does what it is meant to do:
the index found in the lower-case form is the position of `" by "` in the title itself,
the title becomes the normalised text before it and the author the normalised text
after it, whatever the author resolved from the selectors or the meta tag. -/
theorem applyByRule_aligned (raw author : String)
    (hno : ∀ c ∈ (norm raw).data, c.toNat ≠ 0x130) (i : Nat)
    (hi : lastIndexOf " by ".data (jsToLowerCase (norm raw).data) = some i) :
    applyByRule (norm raw) author
      = (norm (String.mk ((norm raw).data.take i)),
         norm (String.mk ((norm raw).data.drop (i + 4)))) ∧
    ∃ b y, (norm raw).data.drop i = ' ' :: b :: y :: ' ' :: (norm raw).data.drop (i + 4) := by
  obtain ⟨ht, ha, hshape⟩ := byRule_core (norm raw).data hno (trimChars_head _)
    (trimChars_getLast _) i hi
  refine ⟨?_, hshape⟩
  have e1 : ¬ (norm (String.mk ((norm raw).data.take i)) = "") := by
    intro h
    apply ht
    have := congrArg String.data h
    simpa [norm] using this
  have e2 : ¬ (norm (String.mk ((norm raw).data.drop (i + 4))) = "") := by
    intro h
    apply ha
    have := congrArg String.data h
    simpa [norm] using this
  unfold applyByRule
  rw [hi]
  simp only [e1, e2, if_false]

/-! ### The content-site filter of sources 1-3 -/

/-- The keys offered by the six loops are the keys offered for the URLs of sources 1-3,
followed by those of sources 4-6. -/
theorem offeredKeys_split (parseUrl : String → Option Url) (inp : MediaInputs) :
    offeredKeys parseUrl inp =
      (imageSourceUrls inp).filterMap (imageOffer parseUrl) ++
      (inp.videoSrcs.filterMap (videoOffer parseUrl) ++
        inp.iframeSrcs.filterMap (iframeOffer parseUrl) ++
        (inp.anchorHrefs.filter (hasExtension ["mp4", "webm", "ogg"])).filterMap
          (videoOffer parseUrl)) := by
  unfold offeredKeys imageSourceUrls
  simp only [List.filterMap_append, List.filterMap_map, List.append_assoc]
  rfl

/-- What the test of sources 1-3 guarantees for a URL that is offered: the absolute URL
parses, its host name ends with `mitadmissions.org` and its path contains
`/wp-content/uploads/`. -/
theorem imageOffer_some (parseUrl : String → Option Url) (src key : String)
    (h : imageOffer parseUrl src = some key) :
    key = toKey parseUrl (toAbs parseUrl src) ∧ key ≠ "" ∧
    ∃ u, parseUrl (toAbs parseUrl src) = some u ∧
      "mitadmissions.org".data <:+ u.hostname.data ∧
      "/wp-content/uploads/".data <:+: u.path.data := by
  unfold imageOffer at h
  simp only at h
  split_ifs at h with hc
  obtain ⟨hk, himg⟩ := hc
  have hkey : toKey parseUrl (toAbs parseUrl src) = key := Option.some.inj h
  refine ⟨hkey.symm, by rw [← hkey]; exact hk, ?_⟩
  unfold isArticleImage at himg
  cases hp : parseUrl (toAbs parseUrl src) with
  | none => simp [hp] at himg
  | some u =>
    simp only [hp, Bool.and_eq_true, decide_eq_true_eq] at himg
    exact ⟨u, rfl, himg.1, himg.2⟩

/-- Every host of the content site passes the host test of `isArticleImage`. -/
theorem contentSite_suffix {hostname : String} (h : IsContentSiteHost hostname) :
    "mitadmissions.org".data <:+ hostname.data := by
  rcases h with h | h
  · rw [h]
  · exact List.IsSuffix.trans ⟨['.'], rfl⟩ h

/-- The keys that sources 1-3 add to the media set come from URLs whose host name ends
with `mitadmissions.org` and whose path contains `/wp-content/uploads/`. -/
theorem imageSources_filtered (parseUrl : String → Option Url) (inp : MediaInputs)
    (key : String) (hk : key ∈ (imageSourceUrls inp).filterMap (imageOffer parseUrl)) :
    ∃ src ∈ imageSourceUrls inp, ∃ u, parseUrl (toAbs parseUrl src) = some u ∧
      key = toKey parseUrl (toAbs parseUrl src) ∧
      "mitadmissions.org".data <:+ u.hostname.data ∧
      "/wp-content/uploads/".data <:+: u.path.data := by
  obtain ⟨src, hsrc, hoff⟩ := List.mem_filterMap.mp hk
  obtain ⟨hkey, _, u, hu, hhost, hpath⟩ := imageOffer_some parseUrl src key hoff
  exact ⟨src, hsrc, u, hu, hkey, hhost, hpath⟩

/-! ### Claim about the content-site filter -/

/-- C11 (the code at the failing input): an image, a picture source and an image link
of the article body hosted on `notmitadmissions.org`, under `/wp-content/uploads/`, are
all three added to the media set, although `notmitadmissions.org` is neither
`mitadmissions.org` nor a subdomain of it: the host test is
`hostname.endsWith('mitadmissions.org')`, which does not look for a dot in front. -/
theorem imageSources_accept_suffix_host :
    imageSourceUrls exampleForeignMedia =
      ["https://notmitadmissions.org/wp-content/uploads/a.jpg",
       "https://notmitadmissions.org/wp-content/uploads/b.png",
       "https://notmitadmissions.org/wp-content/uploads/c.gif"] ∧
    (imageSourceUrls exampleForeignMedia).map (imageOffer exampleForeignParseUrl) =
      [some "https://notmitadmissions.org/wp-content/uploads/a.jpg",
       some "https://notmitadmissions.org/wp-content/uploads/b.png",
       some "https://notmitadmissions.org/wp-content/uploads/c.gif"] ∧
    collectMedia exampleForeignParseUrl exampleForeignMedia =
      ["https://notmitadmissions.org/wp-content/uploads/a.jpg",
       "https://notmitadmissions.org/wp-content/uploads/b.png",
       "https://notmitadmissions.org/wp-content/uploads/c.gif"] ∧
    ¬ IsContentSiteHost "notmitadmissions.org" ∧
    ¬ (∀ (parseUrl : String → Option Url) (src key : String) (u : Url),
        imageOffer parseUrl src = some key → parseUrl (toAbs parseUrl src) = some u →
        IsContentSiteHost u.hostname) := by
  have hnot : ¬ IsContentSiteHost "notmitadmissions.org" := by
    unfold IsContentSiteHost
    decide
  refine ⟨by decide, by decide, by decide, hnot, ?_⟩
  intro h
  exact hnot (h exampleForeignParseUrl "https://notmitadmissions.org/wp-content/uploads/a.jpg"
    "https://notmitadmissions.org/wp-content/uploads/a.jpg"
    ⟨"https", "", "", some "notmitadmissions.org", none, "/wp-content/uploads/a.jpg", none, none⟩
    (by decide) (by decide))

end MitBlogsScraper
